import Mathlib

/-!
# ChainHash: a separate-chaining hash table (`src/chainhash.h`)

Shallow embedding of the class `ChainHash<TK, TV>` and of the properties its
specification states about it.

Modelling conventions
* A chain (`Node*` followed through `next` until `nullptr`) is the list of its
  nodes, head first.  The bucket array `Node** array` is the list of its chains.
* The fields `nsize`, `usedBuckets` and the entries of `bucket_sizes` are C++
  `int`s that are incremented and decremented; they are integers here.
  `capacity` is the length of two arrays and is a natural number.
* The `int` range comes in two layers.  `rehashing`, `set`, `setAll`, `step`
  and `run` are total and compute on unbounded numbers: they give the table a
  call leaves behind when the call completes.  `rehashingInt`, `setInt`,
  `setAllInt`, `stepInt` and `runInt` are the same calls with the two `int`
  computations that can leave the range, `capacity * 2` and `nsize++`,
  checked: they return `none` where one of the two leaves the range, so that
  the source has no defined result, and the table of the first layer
  otherwise (`setInt` states the one reservation, above `2^30` buckets).
* Memory is not a resource of the embedding: `new` succeeds for every size
  that is a non-negative `int`.
* `std::hash<TK>` is a parameter `hash : K → ℕ` of every operation that
  computes a hash code.
* A capacity of zero is outside the embedding: `hashcode % 0` is undefined in
  C++.  Every claim starts from a positive initial capacity.
* `std::out_of_range` is the error of an `Except`; the three messages of the
  source are the three constructors of `ChainError`.
-/

set_option linter.unusedSectionVars false
set_option linter.unnecessarySeqFocus false

/-- The three `std::out_of_range` failures of the source, told apart by their message. -/
inductive ChainError where
  | keyNotFound
  | indexOutOfRange
  | iteratorOutOfRange
  deriving DecidableEq, Repr

/-- Record `ChainHashNode<TK, TV>`; the `next` pointer is the tail of the chain list. -/
structure ChainHashNode (K V : Type) where
  key : K
  value : V
  hashcode : Nat
  deriving DecidableEq, Repr

/-- Class `ChainHashListIterator<TK, TV>`.  The pointer `current` is represented
by the chain from the node it points to onwards; `nullptr` is the empty chain.
In a table without duplicate keys two such chains are equal exactly when the
pointers are, and the terminal position is the empty chain in every case. -/
structure ChainHashListIterator (K V : Type) where
  current : List (ChainHashNode K V)
  deriving DecidableEq, Repr

namespace ChainHashListIterator

variable {K V : Type}

/-- Prefix `operator++`: move to `current->next`.  On the terminal position the
source reads through a null pointer, which has no defined result: `none`. -/
def next (it : ChainHashListIterator K V) : Option (ChainHashListIterator K V) :=
  match it.current with
  | [] => none
  | _ :: rest => some (ChainHashListIterator.mk rest)

/-- Comparison `operator==`. -/
def eq [DecidableEq K] [DecidableEq V] (it other : ChainHashListIterator K V) : Bool :=
  decide (it.current = other.current)

/-- Comparison `operator!=`. -/
def ne [DecidableEq K] [DecidableEq V] (it other : ChainHashListIterator K V) : Bool :=
  decide (it.current ≠ other.current)

/-- Dereference `operator*`. -/
def deref (it : ChainHashListIterator K V) : Except ChainError (ChainHashNode K V) :=
  match it.current with
  | [] => Except.error ChainError.iteratorOutOfRange
  | node :: _ => Except.ok node

/-- The caller's loop `for (it = first; it != last; ++it) visit(*it)` run for at
most `fuel` rounds: the records visited, or `none` when the rounds did not
suffice or a step had no defined result. -/
def collect [DecidableEq K] [DecidableEq V] :
    Nat → ChainHashListIterator K V → ChainHashListIterator K V → Option (List (ChainHashNode K V))
  | 0, it, last => if ne it last then none else some []
  | fuel + 1, it, last =>
    if ne it last then
      match deref it, next it with
      | Except.ok node, some it' => (collect fuel it' last).map (fun visited => node :: visited)
      | _, _ => none
    else some []

end ChainHashListIterator

/-- Fields of `ChainHash<TK, TV>`. -/
structure ChainHash (K V : Type) where
  array : List (List (ChainHashNode K V))
  nsize : Int
  capacity : Nat
  bucket_sizes : List Int
  usedBuckets : Int
  deriving DecidableEq, Repr

/-- Largest value of the C++ type `int` (32 bits), the type of `capacity`,
`nsize`, `usedBuckets` and the bucket counters. -/
def intMax : Int := 2147483647

/-- Constant `maxColision` of the source. -/
def maxColision : Int := 3

/-- Constant `maxFillFactor` of the source: `const float maxFillFactor = 0.8`.
The nearest `float` to `0.8` is `13421773 / 2^24 = 0.800000011920928955078125`,
and this is the value the `double` comparison in `set` sees. -/
def maxFillFactor : ℚ := 13421773 / 16777216

namespace ChainHash

variable {K V : Type} [DecidableEq K]

/-- Constructor `ChainHash(int initialCapacity)`: value-initialised arrays, zero counters. -/
def construct (initialCapacity : Nat) : ChainHash K V :=
  { array := List.replicate initialCapacity []
    nsize := 0
    capacity := initialCapacity
    bucket_sizes := List.replicate initialCapacity 0
    usedBuckets := 0 }

/-- The `while` loop of `get` over one chain. -/
def getLoop (key : K) : List (ChainHashNode K V) → Except ChainError V
  | [] => Except.error ChainError.keyNotFound
  | current :: rest => if current.key = key then Except.ok current.value else getLoop key rest

/-- Method `get`. -/
def get (hash : K → Nat) (s : ChainHash K V) (key : K) : Except ChainError V :=
  let hashcode := hash key
  let index := hashcode % s.capacity
  getLoop key (s.array.getD index [])

/-- Method `size`. -/
def size (s : ChainHash K V) : Int := s.nsize

/-- Method `bucket_count`. -/
def bucket_count (s : ChainHash K V) : Int := s.capacity

/-- Method `bucket_size`. -/
def bucket_size (s : ChainHash K V) (index : Int) : Except ChainError Int :=
  if index < 0 ∨ index ≥ s.capacity then Except.error ChainError.indexOutOfRange
  else Except.ok (s.bucket_sizes.getD index.toNat 0)

/-- Method `fillFactor`: `(double) usedBuckets / (double) capacity`.  Both
operands are exact as doubles and the quotient is correctly rounded; since
`maxFillFactor` is itself a double and no quotient of two `int`s with
`capacity ≤ 2^30` lies within half an ulp above it, comparing the rounded
quotient with `maxFillFactor` is comparing the exact one. -/
def fillFactor (s : ChainHash K V) : ℚ := (s.usedBuckets : ℚ) / (s.capacity : ℚ)

/-- Body of the two loops of `rehashing`: thread `current` in front of its new chain. -/
def relink (t : ChainHash K V) (current : ChainHashNode K V) : ChainHash K V :=
  let new_index := current.hashcode % t.capacity
  let array := t.array.set new_index (current :: t.array.getD new_index [])
  let bucket_sizes := t.bucket_sizes.set new_index (t.bucket_sizes.getD new_index 0 + 1)
  { t with
    array := array
    bucket_sizes := bucket_sizes
    usedBuckets := if bucket_sizes.getD new_index 0 = 1 then t.usedBuckets + 1 else t.usedBuckets }

/-- Method `rehashing`, for a capacity whose double is an `int`; the range
check of `capacity * 2` is in `rehashingInt`. -/
def rehashing (s : ChainHash K V) : ChainHash K V :=
  let oldArray := s.array
  let oldCapacity := s.capacity
  let t : ChainHash K V :=
    { array := List.replicate (s.capacity * 2) []
      nsize := s.nsize
      capacity := s.capacity * 2
      bucket_sizes := List.replicate (s.capacity * 2) 0
      usedBuckets := 0 }
  (List.range oldCapacity).foldl (fun t i => (oldArray.getD i []).foldl relink t) t

/-- The `while` loop of `set`: `some chain` is the chain after the value of the
node with key `key` was overwritten, `none` means the loop ended without a match. -/
def setLoop (key : K) (value : V) : List (ChainHashNode K V) → Option (List (ChainHashNode K V))
  | [] => none
  | current :: rest =>
    if current.key = key then some ({ current with value := value } :: rest)
    else (setLoop key value rest).map (fun chain => current :: chain)

/-- Lines 105 to 110 of `set`: link the new node as head of its bucket and update the counters. -/
def linkNew (s : ChainHash K V) (key : K) (value : V) (hashcode index : Nat) : ChainHash K V :=
  { s with
    array := s.array.set index (ChainHashNode.mk key value hashcode :: s.array.getD index [])
    nsize := s.nsize + 1
    usedBuckets := if s.bucket_sizes.getD index 0 = 0 then s.usedBuckets + 1 else s.usedBuckets
    bucket_sizes := s.bucket_sizes.set index (s.bucket_sizes.getD index 0 + 1) }

/-- Condition of line 111 of `set`, read on the state after the counters were updated. -/
def mustGrow (s : ChainHash K V) (index : Nat) : Prop :=
  fillFactor s > maxFillFactor ∨ s.bucket_sizes.getD index 0 > maxColision

/-- The growth condition is decided on integers: for a positive capacity the
comparison of the two fractions is the comparison of their cross products. -/
instance instDecidableMustGrow (s : ChainHash K V) (index : Nat) : Decidable (mustGrow s index) :=
  decidable_of_iff
    ((0 < s.capacity ∧ 13421773 * (s.capacity : Int) < s.usedBuckets * 16777216)
      ∨ s.bucket_sizes.getD index 0 > maxColision)
    (by
      unfold mustGrow fillFactor maxFillFactor
      refine or_congr ?_ Iff.rfl
      rcases Nat.eq_zero_or_pos s.capacity with h | h
      · rw [h]; norm_num
      · have hc : (0 : ℚ) < (s.capacity : ℚ) := by exact_mod_cast h
        rw [gt_iff_lt, div_lt_div_iff₀ (by norm_num) hc]
        constructor
        · rintro ⟨_, h2⟩
          have : ((13421773 * (s.capacity : Int) : Int) : ℚ)
              < ((s.usedBuckets * 16777216 : Int) : ℚ) := by exact_mod_cast h2
          push_cast at this
          linarith
        · intro h2
          refine ⟨h, ?_⟩
          have : ((13421773 * (s.capacity : Int) : Int) : ℚ)
              < ((s.usedBuckets * 16777216 : Int) : ℚ) := by
            push_cast; linarith
          exact_mod_cast this)

/-- Method `set`, with unbounded counters: the table the call leaves behind
when it completes; the range checks are in `setInt`. -/
def set (hash : K → Nat) (s : ChainHash K V) (key : K) (value : V) : ChainHash K V :=
  let hashcode := hash key
  let index := hashcode % s.capacity
  match setLoop key value (s.array.getD index []) with
  | some chain => { s with array := s.array.set index chain }
  | none =>
    let s1 := linkNew s key value hashcode index
    if mustGrow s1 index then rehashing s1 else s1

/-- The `while` loop of `remove`: `some chain` is the chain with the first node
of key `key` unlinked, `none` means the loop ended without a match. -/
def removeLoop (key : K) : List (ChainHashNode K V) → Option (List (ChainHashNode K V))
  | [] => none
  | current :: rest =>
    if current.key = key then some rest
    else (removeLoop key rest).map (fun chain => current :: chain)

/-- Method `remove`: the returned flag and the state afterwards. -/
def remove (hash : K → Nat) (s : ChainHash K V) (key : K) : Bool × ChainHash K V :=
  let hashcode := hash key
  let index := hashcode % s.capacity
  match removeLoop key (s.array.getD index []) with
  | some chain =>
    let bucket_sizes := s.bucket_sizes.set index (s.bucket_sizes.getD index 0 - 1)
    (true,
      { s with
        array := s.array.set index chain
        nsize := s.nsize - 1
        bucket_sizes := bucket_sizes
        usedBuckets := if bucket_sizes.getD index 0 = 0 then s.usedBuckets - 1 else s.usedBuckets })
  | none => (false, s)

/-- The `while` loop of `contains` over one chain. -/
def containsLoop (key : K) : List (ChainHashNode K V) → Bool
  | [] => false
  | current :: rest => if current.key = key then true else containsLoop key rest

/-- Method `contains`. -/
def contains (hash : K → Nat) (s : ChainHash K V) (key : K) : Bool :=
  let hashcode := hash key
  let index := hashcode % s.capacity
  containsLoop key (s.array.getD index [])

/-- Method `begin`. -/
def begin (s : ChainHash K V) (index : Int) : Except ChainError (ChainHashListIterator K V) :=
  if index < 0 ∨ index ≥ s.capacity then Except.error ChainError.indexOutOfRange
  else Except.ok (ChainHashListIterator.mk (s.array.getD index.toNat []))

/-- Method `end`. -/
def end_ (s : ChainHash K V) (index : Int) : Except ChainError (ChainHashListIterator K V) :=
  if index < 0 ∨ index ≥ s.capacity then Except.error ChainError.indexOutOfRange
  else Except.ok (ChainHashListIterator.mk [])

/-- A call of one of the three indexed public methods. -/
inductive Probe where
  | bucket_size (index : Int)
  | begin (index : Int)
  | end_ (index : Int)

/-- What an indexed call hands back to its caller. -/
inductive ProbeOutcome (K V : Type) where
  | count (r : Except ChainError Int)
  | cursor (r : Except ChainError (ChainHashListIterator K V))

/-- One indexed call as a state transition.  `bucket_size`, `begin` and `end`
assign to no field and to no node, on the failing path and on the other. -/
def probe (s : ChainHash K V) : Probe → ProbeOutcome K V × ChainHash K V
  | Probe.bucket_size index => (ProbeOutcome.count (bucket_size s index), s)
  | Probe.begin index => (ProbeOutcome.cursor (begin s index), s)
  | Probe.end_ index => (ProbeOutcome.cursor (end_ s index), s)

/-- A call of one of the four keyed public methods. -/
inductive Call (K V : Type) where
  | get (key : K)
  | contains (key : K)
  | set (key : K) (value : V)
  | remove (key : K)

/-- What a call hands back to its caller. -/
inductive Outcome (V : Type) where
  | got (r : Except ChainError V)
  | flag (b : Bool)
  | done

/-- One public call as a state transition: the outcome and the table afterwards.
`get` and `contains` assign to no field and to no node, so they hand the table back as it was. -/
def step (hash : K → Nat) (s : ChainHash K V) : Call K V → Outcome V × ChainHash K V
  | Call.get key => (Outcome.got (get hash s key), s)
  | Call.contains key => (Outcome.flag (contains hash s key), s)
  | Call.set key value => (Outcome.done, set hash s key value)
  | Call.remove key => (Outcome.flag (remove hash s key).1, (remove hash s key).2)

/-- The table after a sequence of calls. -/
def run (hash : K → Nat) (s : ChainHash K V) (calls : List (Call K V)) : ChainHash K V :=
  calls.foldl (fun t c => (step hash t c).2) s

/-- The table after a sequence of `set` calls, given as (key, value) pairs. -/
def setAll (hash : K → Nat) (s : ChainHash K V) (kvs : List (K × V)) : ChainHash K V :=
  kvs.foldl (fun t kv => set hash t kv.1 kv.2) s

/-- Method `rehashing` as the machine runs it.  `capacity = capacity * 2` is a
product of `int`s: when it exceeds `intMax` it has no defined value (in
practice it wraps to a negative number and `new Node*[capacity]()` throws), and
the result is `none`.  Otherwise the call is `rehashing`. -/
def rehashingInt (s : ChainHash K V) : Option (ChainHash K V) :=
  if (s.capacity : Int) * 2 ≤ intMax then some (rehashing s) else none

/-- Method `set` as the machine runs it: `none` when `nsize++` or the
`capacity * 2` of `rehashing` leaves the range of `int`.  The growth test is
`mustGrow`, which is the test of the source for capacities up to `2^30` (see
`fillFactor`).  For a larger capacity a growth is out of range in any case and
the rounded quotient of the source can only be more lenient than `mustGrow`:
this definition never returns a table where the source fails, and the only
calls it gives up on although the source completes them are insertions into a
table of more than `2^30` buckets whose fill factor exceeds `maxFillFactor` by
less than the rounding error of a `double`. -/
def setInt (hash : K → Nat) (s : ChainHash K V) (key : K) (value : V) :
    Option (ChainHash K V) :=
  let hashcode := hash key
  let index := hashcode % s.capacity
  match setLoop key value (s.array.getD index []) with
  | some chain => some { s with array := s.array.set index chain }
  | none =>
    if s.nsize + 1 ≤ intMax then
      let s1 := linkNew s key value hashcode index
      if mustGrow s1 index then rehashingInt s1 else some s1
    else none

/-- A sequence of `set` calls as the machine runs it: `none` as soon as one call has no defined result. -/
def setAllInt (hash : K → Nat) (s : ChainHash K V) (kvs : List (K × V)) :
    Option (ChainHash K V) :=
  kvs.foldl (fun acc kv => acc.bind (fun t => setInt hash t kv.1 kv.2)) (some s)

/-- One public call as the machine runs it: `set` is `setInt`, the other three calls compute no `int` that can overflow. -/
def stepInt (hash : K → Nat) (s : ChainHash K V) : Call K V → Option (Outcome V × ChainHash K V)
  | Call.set key value => (setInt hash s key value).map (fun t => (Outcome.done, t))
  | c => some (step hash s c)

/-- A sequence of calls as the machine runs it. -/
def runInt (hash : K → Nat) (s : ChainHash K V) (calls : List (Call K V)) :
    Option (ChainHash K V) :=
  calls.foldl (fun acc c => acc.bind (fun t => (stepInt hash t c).map (fun r => r.2))) (some s)

/-- States reachable from a freshly constructed table of positive capacity by `set` and `remove`. -/
inductive Reachable (hash : K → Nat) : ChainHash K V → Prop where
  | construct (c0 : Nat) (h : 0 < c0) : Reachable hash (construct c0)
  | set {s : ChainHash K V} (key : K) (value : V) (h : Reachable hash s) :
      Reachable hash (set hash s key value)
  | remove {s : ChainHash K V} (key : K) (h : Reachable hash s) :
      Reachable hash (remove hash s key).2

/-- Example hash function: four times the key, so that every key falls into bucket 0 of a table of capacity 4. -/
def hashTimes4 : Nat → Nat := fun k => 4 * k

/-- Example table: capacity 4, the keys 1, 2, 3 all in bucket 0. -/
def exTable : ChainHash Nat Int := setAll hashTimes4 (construct 4) [(1, 10), (2, 20), (3, 30)]

/-- Example hash function on strings: `"a"`, `"b"` and every other key have the
hash codes 0, 4 and 8, all of them in bucket 0 of a table of capacity 4. -/
def hashABC : String → Nat := fun k => if k = "a" then 0 else if k = "b" then 4 else 8

/-- Example sequence of calls: four colliding insertions, a removal and a lookup. -/
def exCalls : List (Call Nat Int) :=
  [Call.set 1 10, Call.set 2 20, Call.set 3 30, Call.set 4 40, Call.remove 2, Call.get 1]

/-- The table of capacity `c` that holds the keys `0, ..., n - 1` with value 0
under the identity hash (what `std::hash<int>` is in libstdc++): key `i` is
alone in bucket `i`. -/
def spread (c n : Nat) : ChainHash Nat Int :=
  { array := (List.range n).map (fun i => [ChainHashNode.mk i 0 i]) ++ List.replicate (c - n) []
    nsize := n
    capacity := c
    bucket_sizes := List.replicate n 1 ++ List.replicate (c - n) 0
    usedBuckets := n }

/-- Example of a table that satisfies the invariants on counters, slots and
key uniqueness, but whose only node caches the hash code 3 for the key 1, which
under the identity hash has hash code 1. -/
def exStale : ChainHash Nat Int :=
  { array := [[], [ChainHashNode.mk 1 10 3]]
    nsize := 1
    capacity := 2
    bucket_sizes := [0, 1]
    usedBuckets := 1 }

/-- Example sequence of `set` calls on three distinct keys. -/
def exThree : List (Nat × Int) := [(1, 10), (2, 20), (3, 30)]

/-- Example sequence of `set` calls on four distinct keys. -/
def exFour : List (Nat × Int) := [(1, 10), (2, 20), (3, 30), (4, 40)]

/-- Example hash function with a single hash code: every key has hash code 7. -/
def hashSeven : Nat → Nat := fun _ => 7

/-- Example table: capacity 4, the keys 1, 2, 3, 4 with one hash code; the fourth insertion rehashed. -/
def exCrowded : ChainHash Nat Int :=
  setAll hashSeven (construct 4) [(1, 10), (2, 20), (3, 30), (4, 40)]

/-- All nodes of the table, bucket by bucket. -/
def nodes (s : ChainHash K V) : List (ChainHashNode K V) := s.array.flatten

/-- The part of the data-model invariants that speaks of the arrays and counters only. -/
structure Shape (s : ChainHash K V) : Prop where
  cap_pos : 0 < s.capacity
  arr_len : s.array.length = s.capacity
  sizes_eq : s.bucket_sizes = s.array.map (fun chain => (chain.length : Int))
  used_eq : s.usedBuckets = (s.array.countP (fun chain => !chain.isEmpty) : Int)
  slot_ok : ∀ i, ∀ h : i < s.array.length, ∀ n ∈ s.array[i], n.hashcode % s.capacity = i

/-- The data-model invariants of the table (section 3 of the specification). -/
structure Inv (hash : K → Nat) (s : ChainHash K V) extends Shape s : Prop where
  nsize_eq : s.nsize = (s.nodes.length : Int)
  hash_ok : ∀ n ∈ s.nodes, n.hashcode = hash n.key
  nodup : (s.nodes.map (fun n => n.key)).Nodup

end ChainHash

/-! ## Lists: an array cell and the cells around it -/

section ListLemmas

variable {α : Type}

theorem getD_append_length (A B : List α) (c d : α) : (A ++ c :: B).getD A.length d = c := by
  induction A with
  | nil => rfl
  | cons a A ih => simpa using ih

theorem set_append_length (A B : List α) (c x : α) :
    (A ++ c :: B).set A.length x = A ++ x :: B := by
  induction A with
  | nil => rfl
  | cons a A ih => simp [ih]

/-- An array with a valid index `i` is the cells before `i`, cell `i`, and the cells after it. -/
theorem exists_split (arr : List α) (i : Nat) (h : i < arr.length) (d : α) :
    ∃ A B, arr = A ++ arr.getD i d :: B ∧ A.length = i := by
  refine ⟨arr.take i, arr.drop (i + 1), ?_, ?_⟩
  · rw [List.getD_eq_getElem arr d h, List.getElem_cons_drop, List.take_append_drop]
  · simp [Nat.le_of_lt h]

theorem getD_append_of_length (A B : List α) (c d : α) (i : Nat) (h : A.length = i) :
    (A ++ c :: B).getD i d = c := by
  subst h; exact getD_append_length A B c d

theorem set_append_of_length (A B : List α) (c x : α) (i : Nat) (h : A.length = i) :
    (A ++ c :: B).set i x = A ++ x :: B := by
  subst h; exact set_append_length A B c x

theorem getD_set_self (arr : List α) (i : Nat) (h : i < arr.length) (x d : α) :
    (arr.set i x).getD i d = x := by
  simp [List.getD_eq_getElem?_getD, List.getElem?_set, h]

theorem getD_set_ne (arr : List α) (i j : Nat) (h : i ≠ j) (x d : α) :
    (arr.set i x).getD j d = arr.getD j d := by
  simp [List.getD_eq_getElem?_getD, List.getElem?_set, h]

theorem getD_replicate_self (n i : Nat) (d : α) : (List.replicate n d).getD i d = d := by
  simp only [List.getD_eq_getElem?_getD, List.getElem?_replicate]
  split <;> rfl

theorem mem_flatten_iff_getElem (arr : List (List α)) (a : α) :
    a ∈ arr.flatten ↔ ∃ i, ∃ h : i < arr.length, a ∈ arr[i] := by
  rw [List.mem_flatten]
  constructor
  · rintro ⟨l, hl, ha⟩
    obtain ⟨i, hi, rfl⟩ := List.getElem_of_mem hl
    exact ⟨i, hi, ha⟩
  · rintro ⟨i, hi, ha⟩
    exact ⟨arr[i], List.getElem_mem hi, ha⟩

theorem flatten_set_cons_perm (arr : List (List α)) (i : Nat) (h : i < arr.length) (a : α) :
    (arr.set i (a :: arr.getD i [])).flatten.Perm (a :: arr.flatten) := by
  obtain ⟨A, B, hAB, hlen⟩ := exists_split arr i h []
  generalize arr.getD i [] = c at hAB
  subst hAB
  subst hlen
  rw [set_append_length]
  simp only [List.flatten_append, List.flatten_cons, List.cons_append]
  exact List.perm_middle

end ListLemmas

namespace ChainHash

variable {K V : Type} [DecidableEq K]

/-! ## The four chain loops -/

theorem getLoop_error_iff (key : K) (chain : List (ChainHashNode K V)) (e : ChainError) :
    getLoop key chain = Except.error e ↔ e = ChainError.keyNotFound ∧ ∀ n ∈ chain, n.key ≠ key := by
  induction chain with
  | nil => simp [getLoop, eq_comm]
  | cons c rest ih =>
    by_cases hc : c.key = key
    · simp [getLoop, hc]
    · simp [getLoop, hc, ih]

theorem getLoop_ok_mem (key : K) (chain : List (ChainHashNode K V)) (v : V)
    (h : getLoop key chain = Except.ok v) : ∃ n ∈ chain, n.key = key ∧ n.value = v := by
  induction chain with
  | nil => simp [getLoop] at h
  | cons c rest ih =>
    by_cases hc : c.key = key
    · simp only [getLoop, hc, if_true, Except.ok.injEq] at h
      exact ⟨c, List.mem_cons_self _ _, hc, h⟩
    · simp only [getLoop, hc, if_false] at h
      obtain ⟨n, hn, hk⟩ := ih h
      exact ⟨n, List.mem_cons_of_mem _ hn, hk⟩

theorem getLoop_of_mem (chain : List (ChainHashNode K V))
    (hnd : (chain.map (fun n => n.key)).Nodup) (n : ChainHashNode K V) (hn : n ∈ chain) :
    getLoop n.key chain = Except.ok n.value := by
  induction chain with
  | nil => simp at hn
  | cons c rest ih =>
    simp only [List.map_cons, List.nodup_cons, List.mem_map, not_exists, not_and] at hnd
    rcases List.mem_cons.1 hn with rfl | hmem
    · simp [getLoop]
    · have hne : c.key ≠ n.key := fun h => hnd.1 n hmem h.symm
      simp only [getLoop, hne, if_false]
      exact ih hnd.2 hmem

theorem getLoop_ok_iff (key : K) (chain : List (ChainHashNode K V))
    (hnd : (chain.map (fun n => n.key)).Nodup) (v : V) :
    getLoop key chain = Except.ok v ↔ ∃ n ∈ chain, n.key = key ∧ n.value = v := by
  constructor
  · exact getLoop_ok_mem key chain v
  · rintro ⟨n, hn, rfl, rfl⟩
    exact getLoop_of_mem chain hnd n hn

/-- Two scans agree as soon as they agree on the values they can return. -/
theorem getLoop_congr (key : K) (c1 c2 : List (ChainHashNode K V))
    (h : ∀ v, getLoop key c1 = Except.ok v ↔ getLoop key c2 = Except.ok v) :
    getLoop key c1 = getLoop key c2 := by
  cases h1 : getLoop key c1 with
  | ok v => exact ((h v).1 h1).symm
  | error e =>
    cases h2 : getLoop key c2 with
    | ok v => rw [(h v).2 h2] at h1; cases h1
    | error e2 =>
      rw [((getLoop_error_iff key c1 e).1 h1).1, ((getLoop_error_iff key c2 e2).1 h2).1]

theorem containsLoop_iff (key : K) (chain : List (ChainHashNode K V)) :
    containsLoop key chain = true ↔ ∃ n ∈ chain, n.key = key := by
  induction chain with
  | nil => simp [containsLoop]
  | cons c rest ih =>
    by_cases hc : c.key = key
    · simp [containsLoop, hc]
    · simp [containsLoop, hc, ih]

theorem containsLoop_eq_false_iff (key : K) (chain : List (ChainHashNode K V)) :
    containsLoop key chain = false ↔ ∀ n ∈ chain, n.key ≠ key := by
  rw [← Bool.not_eq_true, containsLoop_iff]
  simp

theorem containsLoop_iff_getLoop (key : K) (chain : List (ChainHashNode K V)) :
    containsLoop key chain = true ↔ ∃ v, getLoop key chain = Except.ok v := by
  induction chain with
  | nil => simp [containsLoop, getLoop]
  | cons c rest ih =>
    by_cases hc : c.key = key
    · simp [containsLoop, getLoop, hc]
    · simp [containsLoop, getLoop, hc, ih]

theorem setLoop_eq_none_iff (key : K) (value : V) (chain : List (ChainHashNode K V)) :
    setLoop key value chain = none ↔ ∀ n ∈ chain, n.key ≠ key := by
  induction chain with
  | nil => simp [setLoop]
  | cons c rest ih =>
    by_cases hc : c.key = key
    · simp [setLoop, hc]
    · simp [setLoop, hc, ih]

theorem removeLoop_eq_none_iff (key : K) (chain : List (ChainHashNode K V)) :
    removeLoop key chain = none ↔ ∀ n ∈ chain, n.key ≠ key := by
  induction chain with
  | nil => simp [removeLoop]
  | cons c rest ih =>
    by_cases hc : c.key = key
    · simp [removeLoop, hc]
    · simp [removeLoop, hc, ih]

end ChainHash

namespace ChainHash

variable {K V : Type} [DecidableEq K]

/-! ## Linking a node in front of a chain keeps the shape of the table -/

/-- The arrays and counters after node `n` became head of bucket `i`. -/
theorem shape_link (t : ChainHash K V) (ht : Shape t) (n : ChainHashNode K V) (i : Nat)
    (hi : n.hashcode % t.capacity = i) (ns : Int) :
    Shape
      { array := t.array.set i (n :: t.array.getD i [])
        nsize := ns
        capacity := t.capacity
        bucket_sizes := t.bucket_sizes.set i (t.bucket_sizes.getD i 0 + 1)
        usedBuckets := if (t.array.getD i []).isEmpty then t.usedBuckets + 1 else t.usedBuckets } := by
  have hlt : i < t.array.length := by
    rw [ht.arr_len, ← hi]; exact Nat.mod_lt _ ht.cap_pos
  obtain ⟨A, B, hAB, hlen⟩ := exists_split t.array i hlt []
  have hs := ht.sizes_eq
  have hu := ht.used_eq
  have hslot := ht.slot_ok
  refine ⟨ht.cap_pos, ?_, ?_, ?_, ?_⟩
  · simpa using ht.arr_len
  · show t.bucket_sizes.set i (t.bucket_sizes.getD i 0 + 1)
      = (t.array.set i (n :: t.array.getD i [])).map (fun chain => (chain.length : Int))
    rw [hs, List.map_set]
    congr 1
    generalize t.array.getD i [] = c at hAB ⊢
    rw [hAB, List.map_append, List.map_cons,
      getD_append_of_length _ _ _ _ i (by simpa using hlen)]
    simp
  · show (if (t.array.getD i []).isEmpty then t.usedBuckets + 1 else t.usedBuckets)
      = ((t.array.set i (n :: t.array.getD i [])).countP (fun chain => !chain.isEmpty) : Int)
    rw [hu]
    generalize t.array.getD i [] = c at hAB ⊢
    rw [hAB, set_append_of_length _ _ _ _ i hlen]
    simp only [List.countP_append, List.countP_cons]
    cases c <;> simp <;> omega
  · intro j hj m hm
    show m.hashcode % t.capacity = j
    have hj2 : j < t.array.length := by simpa using hj
    rw [List.getElem_set] at hm
    split at hm
    · rename_i hij
      rcases List.mem_cons.1 hm with rfl | hm2
      · rw [hi, hij]
      · rw [List.getD_eq_getElem _ _ hlt] at hm2
        rw [← hij]
        exact hslot i hlt m hm2
    · exact hslot j hj2 m hm

theorem nodes_link_perm (t : ChainHash K V) (n : ChainHashNode K V) (i : Nat)
    (hlt : i < t.array.length) (ns : Int) (sz : List Int) (u : Int) :
    (nodes
      { array := t.array.set i (n :: t.array.getD i [])
        nsize := ns
        capacity := t.capacity
        bucket_sizes := sz
        usedBuckets := u }).Perm (n :: nodes t) :=
  flatten_set_cons_perm t.array i hlt n

/-- Reading the counter after the increment, as `rehashing` does, is reading whether the chain was empty. -/
theorem relink_eq (t : ChainHash K V) (ht : Shape t) (n : ChainHashNode K V) :
    relink t n =
      { array := t.array.set (n.hashcode % t.capacity)
          (n :: t.array.getD (n.hashcode % t.capacity) [])
        nsize := t.nsize
        capacity := t.capacity
        bucket_sizes := t.bucket_sizes.set (n.hashcode % t.capacity)
          (t.bucket_sizes.getD (n.hashcode % t.capacity) 0 + 1)
        usedBuckets := if (t.array.getD (n.hashcode % t.capacity) []).isEmpty then t.usedBuckets + 1
          else t.usedBuckets } := by
  have hlt : n.hashcode % t.capacity < t.array.length := by
    rw [ht.arr_len]; exact Nat.mod_lt _ ht.cap_pos
  have hlt2 : n.hashcode % t.capacity < t.bucket_sizes.length := by
    rw [ht.sizes_eq]; simpa using hlt
  unfold relink
  simp only [getD_set_self _ _ hlt2]
  congr 1
  have : t.bucket_sizes.getD (n.hashcode % t.capacity) 0
      = ((t.array.getD (n.hashcode % t.capacity) []).length : Int) := by
    rw [ht.sizes_eq, List.getD_eq_getElem _ _ (by simpa using hlt),
      List.getD_eq_getElem _ _ hlt]
    simp
  rw [this]
  cases t.array.getD (n.hashcode % t.capacity) [] with
  | nil => simp
  | cons a l =>
    have : ((a :: l).length : Int) + 1 ≠ 1 := by simp; omega
    simp [this]
    omega

end ChainHash

namespace ChainHash

variable {K V : Type} [DecidableEq K]

/-! ## Rehashing re-threads every node and nothing else -/

theorem relink_spec (t : ChainHash K V) (ht : Shape t) (n : ChainHashNode K V) :
    Shape (relink t n) ∧ (relink t n).capacity = t.capacity ∧ (relink t n).nsize = t.nsize
      ∧ (nodes (relink t n)).Perm (n :: nodes t) := by
  have hlt : n.hashcode % t.capacity < t.array.length := by
    rw [ht.arr_len]; exact Nat.mod_lt _ ht.cap_pos
  rw [relink_eq t ht n]
  exact ⟨shape_link t ht n _ rfl t.nsize, rfl, rfl, nodes_link_perm t n _ hlt _ _ _⟩

theorem foldl_relink_spec (chain : List (ChainHashNode K V)) (t : ChainHash K V) (ht : Shape t) :
    Shape (chain.foldl relink t) ∧ (chain.foldl relink t).capacity = t.capacity
      ∧ (chain.foldl relink t).nsize = t.nsize
      ∧ (nodes (chain.foldl relink t)).Perm (chain ++ nodes t) := by
  induction chain generalizing t with
  | nil => exact ⟨ht, rfl, rfl, List.Perm.refl _⟩
  | cons c rest ih =>
    obtain ⟨h1, h2, h3, h4⟩ := relink_spec t ht c
    obtain ⟨g1, g2, g3, g4⟩ := ih (relink t c) h1
    refine ⟨g1, g2.trans h2, g3.trans h3, ?_⟩
    simp only [List.foldl_cons]
    refine g4.trans ?_
    refine (List.Perm.append_left rest h4).trans ?_
    simp

theorem rehash_loop_spec (old : List (List (ChainHashNode K V))) (t : ChainHash K V)
    (ht : Shape t) (m : Nat) (hm : m ≤ old.length) :
    Shape ((List.range m).foldl (fun t i => (old.getD i []).foldl relink t) t)
      ∧ ((List.range m).foldl (fun t i => (old.getD i []).foldl relink t) t).capacity = t.capacity
      ∧ ((List.range m).foldl (fun t i => (old.getD i []).foldl relink t) t).nsize = t.nsize
      ∧ (nodes ((List.range m).foldl (fun t i => (old.getD i []).foldl relink t) t)).Perm
          ((old.take m).flatten ++ nodes t) := by
  induction m with
  | zero => exact ⟨ht, rfl, rfl, by simp⟩
  | succ m ih =>
    obtain ⟨h1, h2, h3, h4⟩ := ih (Nat.le_of_succ_le hm)
    have hlt : m < old.length := hm
    rw [List.range_succ, List.foldl_append]
    simp only [List.foldl_cons, List.foldl_nil]
    obtain ⟨g1, g2, g3, g4⟩ := foldl_relink_spec (old.getD m []) _ h1
    refine ⟨g1, g2.trans h2, g3.trans h3, ?_⟩
    refine g4.trans ?_
    refine (List.Perm.append_left _ h4).trans ?_
    rw [List.take_succ, List.getElem?_eq_getElem hlt, List.getD_eq_getElem _ _ hlt]
    simp only [Option.toList, List.flatten_append, List.flatten_cons, List.flatten_nil,
      List.append_nil, ← List.append_assoc]
    exact List.Perm.append_right _ List.perm_append_comm

theorem shape_empty (c : Nat) (hc : 0 < c) (ns : Int) :
    Shape
      ({ array := List.replicate c []
         nsize := ns
         capacity := c
         bucket_sizes := List.replicate c 0
         usedBuckets := 0 } : ChainHash K V) := by
  refine ⟨hc, by simp, by simp, ?_, ?_⟩
  · show (0 : Int) = ((List.replicate c ([] : List (ChainHashNode K V))).countP
      (fun chain => !chain.isEmpty) : Int)
    simp [List.countP_replicate]
  · intro i hi n hn
    simp at hn

theorem rehashing_shape (s : ChainHash K V) (hs : Shape s) :
    Shape (rehashing s) ∧ (rehashing s).capacity = s.capacity * 2
      ∧ (rehashing s).nsize = s.nsize ∧ (nodes (rehashing s)).Perm (nodes s) := by
  have h0 := shape_empty (K := K) (V := V) (s.capacity * 2)
    (Nat.mul_pos hs.cap_pos (by decide)) s.nsize
  obtain ⟨h1, h2, h3, h4⟩ := rehash_loop_spec s.array _ h0 s.capacity (le_of_eq hs.arr_len.symm)
  refine ⟨h1, h2, h3, ?_⟩
  refine h4.trans ?_
  rw [← hs.arr_len, List.take_length]
  simp [nodes]

theorem rehashing_inv (hash : K → Nat) (s : ChainHash K V) (hs : Inv hash s) :
    Inv hash (rehashing s) := by
  obtain ⟨h1, _, h3, h4⟩ := rehashing_shape s hs.toShape
  refine { toShape := h1, nsize_eq := ?_, hash_ok := ?_, nodup := ?_ }
  · rw [h3, hs.nsize_eq, h4.length_eq]
  · intro n hn
    exact hs.hash_ok n (h4.mem_iff.1 hn)
  · exact ((h4.map (fun n => n.key)).nodup_iff).2 hs.nodup

end ChainHash

namespace ChainHash

variable {K V : Type} [DecidableEq K]

/-! ## Lookups read the set of nodes -/

theorem index_lt (s : ChainHash K V) (hs : Shape s) (h : Nat) :
    h % s.capacity < s.array.length := by
  rw [hs.arr_len]; exact Nat.mod_lt _ hs.cap_pos

theorem bucket_subset_nodes (s : ChainHash K V) (i : Nat) (n : ChainHashNode K V)
    (hn : n ∈ s.array.getD i []) : n ∈ nodes s := by
  by_cases hi : i < s.array.length
  · rw [List.getD_eq_getElem _ _ hi] at hn
    exact (mem_flatten_iff_getElem _ _).2 ⟨i, hi, hn⟩
  · rw [List.getD_eq_getElem?_getD, List.getElem?_eq_none (Nat.le_of_not_lt hi)] at hn
    simp at hn

theorem bucket_sublist_nodes (s : ChainHash K V) (i : Nat) :
    (s.array.getD i []).Sublist (nodes s) := by
  by_cases hi : i < s.array.length
  · rw [List.getD_eq_getElem _ _ hi]
    exact List.sublist_flatten_of_mem (List.getElem_mem hi)
  · rw [List.getD_eq_getElem?_getD, List.getElem?_eq_none (Nat.le_of_not_lt hi)]
    simp

theorem mem_bucket_of_mem_nodes (hash : K → Nat) (s : ChainHash K V) (hs : Inv hash s)
    (n : ChainHashNode K V) (hn : n ∈ nodes s) :
    n ∈ s.array.getD (hash n.key % s.capacity) [] := by
  obtain ⟨i, hi, hmem⟩ := (mem_flatten_iff_getElem _ _).1 hn
  have h1 := hs.slot_ok i hi n hmem
  rw [hs.hash_ok n hn] at h1
  rw [h1, List.getD_eq_getElem _ _ hi]
  exact hmem

theorem bucket_nodup (hash : K → Nat) (s : ChainHash K V) (hs : Inv hash s) (i : Nat) :
    ((s.array.getD i []).map (fun n => n.key)).Nodup :=
  List.Nodup.sublist ((bucket_sublist_nodes s i).map _) hs.nodup

theorem get_ok_iff (hash : K → Nat) (s : ChainHash K V) (hs : Inv hash s) (key : K) (v : V) :
    get hash s key = Except.ok v ↔ ∃ n ∈ nodes s, n.key = key ∧ n.value = v := by
  unfold get
  simp only []
  rw [getLoop_ok_iff key _ (bucket_nodup hash s hs _) v]
  constructor
  · rintro ⟨n, hn, hk⟩
    exact ⟨n, bucket_subset_nodes s _ n hn, hk⟩
  · rintro ⟨n, hn, rfl, hv⟩
    exact ⟨n, mem_bucket_of_mem_nodes hash s hs n hn, rfl, hv⟩

theorem get_error_iff (hash : K → Nat) (s : ChainHash K V) (hs : Inv hash s) (key : K)
    (e : ChainError) :
    get hash s key = Except.error e ↔ e = ChainError.keyNotFound ∧ ∀ n ∈ nodes s, n.key ≠ key := by
  unfold get
  simp only []
  rw [getLoop_error_iff]
  constructor
  · rintro ⟨he, h⟩
    refine ⟨he, fun n hn hk => ?_⟩
    subst hk
    exact h n (mem_bucket_of_mem_nodes hash s hs n hn) rfl
  · rintro ⟨he, h⟩
    exact ⟨he, fun n hn => h n (bucket_subset_nodes s _ n hn)⟩

theorem contains_iff (hash : K → Nat) (s : ChainHash K V) (hs : Inv hash s) (key : K) :
    contains hash s key = true ↔ ∃ n ∈ nodes s, n.key = key := by
  unfold contains
  simp only []
  rw [containsLoop_iff]
  constructor
  · rintro ⟨n, hn, hk⟩
    exact ⟨n, bucket_subset_nodes s _ n hn, hk⟩
  · rintro ⟨n, hn, rfl⟩
    exact ⟨n, mem_bucket_of_mem_nodes hash s hs n hn, rfl⟩

theorem contains_iff_get (hash : K → Nat) (s : ChainHash K V) (key : K) :
    contains hash s key = true ↔ ∃ v, get hash s key = Except.ok v :=
  containsLoop_iff_getLoop key _

/-- Two tables answer `get key` alike when they hold the same values under `key`. -/
theorem get_congr (hash : K → Nat) (s t : ChainHash K V) (hs : Inv hash s) (ht : Inv hash t)
    (key : K)
    (h : ∀ v, (∃ n ∈ nodes s, n.key = key ∧ n.value = v) ↔ ∃ n ∈ nodes t, n.key = key ∧ n.value = v) :
    get hash s key = get hash t key := by
  apply getLoop_congr
  intro v
  have h1 := get_ok_iff hash s hs key v
  have h2 := get_ok_iff hash t ht key v
  unfold get at h1 h2
  simp only [] at h1 h2
  rw [h1, h2]
  exact h v

theorem contains_eq_of_get_eq (hash : K → Nat) (s t : ChainHash K V) (key : K)
    (h : get hash s key = get hash t key) : contains hash s key = contains hash t key := by
  have h1 := contains_iff_get hash s key
  have h2 := contains_iff_get hash t key
  rw [h] at h1
  cases hc : contains hash t key with
  | true => exact h1.2 (h2.1 hc)
  | false =>
    cases hc2 : contains hash s key with
    | false => rfl
    | true => rw [h2.2 (h1.1 hc2)] at hc; cases hc

theorem get_rehashing (hash : K → Nat) (s : ChainHash K V) (hs : Inv hash s) (key : K) :
    get hash (rehashing s) key = get hash s key := by
  apply get_congr hash _ _ (rehashing_inv hash s hs) hs
  intro v
  have hp := (rehashing_shape s hs.toShape).2.2.2
  constructor
  · rintro ⟨n, hn, hk⟩
    exact ⟨n, hp.mem_iff.1 hn, hk⟩
  · rintro ⟨n, hn, hk⟩
    exact ⟨n, hp.mem_iff.2 hn, hk⟩

end ChainHash

namespace ChainHash

variable {K V : Type} [DecidableEq K]

/-! ## `set`: the update path and the insertion path -/

theorem setLoop_some_map (key : K) (value : V) (chain chain' : List (ChainHashNode K V))
    (h : setLoop key value chain = some chain') :
    chain'.map (fun n => (n.key, n.hashcode)) = chain.map (fun n => (n.key, n.hashcode)) := by
  induction chain generalizing chain' with
  | nil => simp [setLoop] at h
  | cons c rest ih =>
    by_cases hc : c.key = key
    · simp only [setLoop, hc, if_true, Option.some.injEq] at h
      subst h
      simp [hc]
    · simp only [setLoop, hc, if_false, Option.map_eq_some'] at h
      obtain ⟨r, hr, rfl⟩ := h
      simp [ih r hr]

theorem setLoop_some_get (key : K) (value : V) (chain chain' : List (ChainHashNode K V))
    (h : setLoop key value chain = some chain') (key' : K) :
    getLoop key' chain' = if key' = key then Except.ok value else getLoop key' chain := by
  induction chain generalizing chain' with
  | nil => simp [setLoop] at h
  | cons c rest ih =>
    by_cases hc : c.key = key
    · simp only [setLoop, hc, if_true, Option.some.injEq] at h
      subst h
      by_cases hk : key' = key
      · simp [getLoop, hk]
      · have hk2 : ¬ key = key' := fun h => hk h.symm
        simp [getLoop, hk, hk2, hc]
    · simp only [setLoop, hc, if_false, Option.map_eq_some'] at h
      obtain ⟨r, hr, rfl⟩ := h
      by_cases hk : key' = key
      · subst hk
        simp [getLoop, hc, ih r hr]
      · by_cases hck : c.key = key'
        · simp [getLoop, hck, hk]
        · simp [getLoop, hck, ih r hr, hk]

theorem setLoop_some_mem (key : K) (value : V) (chain chain' : List (ChainHashNode K V))
    (h : setLoop key value chain = some chain') : ∃ n ∈ chain, n.key = key := by
  by_contra hne
  have : setLoop key value chain = none :=
    (setLoop_eq_none_iff key value chain).2 (fun n hn hk => hne ⟨n, hn, hk⟩)
  rw [this] at h
  cases h

/-- Replacing a chain by one with the same keys and hash codes, node for node, keeps the invariants. -/
theorem inv_replace (hash : K → Nat) (s : ChainHash K V) (hs : Inv hash s) (i : Nat)
    (hi : i < s.array.length) (chain' : List (ChainHashNode K V))
    (hmap : chain'.map (fun n => (n.key, n.hashcode))
      = (s.array.getD i []).map (fun n => (n.key, n.hashcode))) :
    Inv hash { s with array := s.array.set i chain' } := by
  obtain ⟨A, B, hAB, hlen⟩ := exists_split s.array i hi []
  have hset : s.array.set i chain' = A ++ chain' :: B := by
    rw [hAB, set_append_of_length _ _ _ _ i hlen]
  have hkeys : chain'.map (fun n => n.key) = (s.array.getD i []).map (fun n => n.key) := by
    have := congrArg (List.map Prod.fst) hmap
    simpa [List.map_map, Function.comp_def] using this
  have hlength : chain'.length = (s.array.getD i []).length := by
    have := congrArg List.length hmap
    simpa using this
  have hmem : ∀ m ∈ chain', ∃ m0 ∈ s.array.getD i [], m0.key = m.key ∧ m0.hashcode = m.hashcode := by
    intro m hm
    have : (m.key, m.hashcode) ∈ chain'.map (fun n => (n.key, n.hashcode)) :=
      List.mem_map.2 ⟨m, hm, rfl⟩
    rw [hmap] at this
    obtain ⟨m0, hm0, heq⟩ := List.mem_map.1 this
    simp only [Prod.mk.injEq] at heq
    exact ⟨m0, hm0, heq.1, heq.2⟩
  have hs1 := hs.sizes_eq
  have hs2 := hs.used_eq
  have hs3 := hs.nsize_eq
  have hs4 := hs.nodup
  have hs5 := hs.hash_ok
  have hsl := hs.slot_ok
  unfold nodes at hs3 hs4 hs5
  refine { cap_pos := hs.cap_pos, arr_len := ?_, sizes_eq := ?_, used_eq := ?_, slot_ok := ?_,
           nsize_eq := ?_, hash_ok := ?_, nodup := ?_ }
  · simpa using hs.arr_len
  · show s.bucket_sizes = (s.array.set i chain').map (fun chain => (chain.length : Int))
    rw [hset, hs1]
    generalize s.array.getD i [] = c at hAB hlength
    rw [hAB]
    simp [hlength]
  · show s.usedBuckets = ((s.array.set i chain').countP (fun chain => !chain.isEmpty) : Int)
    rw [hset, hs2]
    generalize s.array.getD i [] = c at hAB hlength
    rw [hAB]
    have he : chain'.isEmpty = c.isEmpty := by
      cases chain' <;> cases c <;> simp at hlength ⊢
    simp only [List.countP_append, List.countP_cons, he]
  · intro j hj m hm
    show m.hashcode % s.capacity = j
    have hj2 : j < s.array.length := by simpa using hj
    have hm' : m ∈ (s.array.set i chain')[j] := hm
    rw [List.getElem_set] at hm'
    split at hm'
    · rename_i hij
      obtain ⟨m0, hm0, _, hh⟩ := hmem m hm'
      rw [List.getD_eq_getElem _ _ hi] at hm0
      rw [← hh, ← hij]
      exact hsl i hi m0 hm0
    · exact hsl j hj2 m hm'
  · show s.nsize = ((s.array.set i chain').flatten.length : Int)
    rw [hset, hs3]
    generalize s.array.getD i [] = c at hAB hlength
    rw [hAB]
    simp [hlength]
  · intro n hn
    have hn' : n ∈ (s.array.set i chain').flatten := hn
    rw [hset] at hn'
    simp only [List.flatten_append, List.flatten_cons, List.mem_append] at hn'
    have hsub : ∀ x, x ∈ A.flatten ∨ x ∈ s.array.getD i [] ∨ x ∈ B.flatten → x ∈ s.array.flatten := by
      intro x hx
      rw [hAB]
      simpa only [List.flatten_append, List.flatten_cons, List.mem_append] using hx
    rcases hn' with h | h | h
    · exact hs5 n (hsub n (Or.inl h))
    · obtain ⟨m0, hm0, hk, hh⟩ := hmem n h
      rw [← hk, ← hh]
      exact hs5 m0 (hsub m0 (Or.inr (Or.inl hm0)))
    · exact hs5 n (hsub n (Or.inr (Or.inr h)))
  · show ((s.array.set i chain').flatten.map (fun n => n.key)).Nodup
    rw [hset]
    rw [hAB] at hs4
    simpa only [List.flatten_append, List.flatten_cons, List.map_append, hkeys] using hs4

end ChainHash

namespace ChainHash

variable {K V : Type} [DecidableEq K]

theorem sizes_getD (s : ChainHash K V) (hs : Shape s) (i : Nat) (hi : i < s.array.length) :
    s.bucket_sizes.getD i 0 = ((s.array.getD i []).length : Int) := by
  rw [hs.sizes_eq, List.getD_eq_getElem _ _ (by simpa using hi), List.getD_eq_getElem _ _ hi]
  simp

theorem linkNew_eq (s : ChainHash K V) (hs : Shape s) (key : K) (value : V) (hashcode i : Nat)
    (hi : i < s.array.length) :
    linkNew s key value hashcode i =
      { array := s.array.set i (ChainHashNode.mk key value hashcode :: s.array.getD i [])
        nsize := s.nsize + 1
        capacity := s.capacity
        bucket_sizes := s.bucket_sizes.set i (s.bucket_sizes.getD i 0 + 1)
        usedBuckets := if (s.array.getD i []).isEmpty then s.usedBuckets + 1
          else s.usedBuckets } := by
  unfold linkNew
  congr 1
  rw [sizes_getD s hs i hi]
  cases s.array.getD i [] with
  | nil => simp
  | cons a l =>
    have : ((a :: l).length : Int) ≠ 0 := by simp; omega
    simp [this]
    omega

theorem linkNew_inv (hash : K → Nat) (s : ChainHash K V) (hs : Inv hash s) (key : K) (value : V)
    (hnone : ∀ n ∈ s.array.getD (hash key % s.capacity) [], n.key ≠ key) :
    Inv hash (linkNew s key value (hash key) (hash key % s.capacity))
      ∧ (nodes (linkNew s key value (hash key) (hash key % s.capacity))).Perm
          (ChainHashNode.mk key value (hash key) :: nodes s) := by
  have hi := index_lt s hs.toShape (hash key)
  have hperm := nodes_link_perm s (ChainHashNode.mk key value (hash key)) _ hi (s.nsize + 1)
    (s.bucket_sizes.set (hash key % s.capacity)
      (s.bucket_sizes.getD (hash key % s.capacity) 0 + 1))
    (if (s.array.getD (hash key % s.capacity) []).isEmpty then s.usedBuckets + 1
      else s.usedBuckets)
  have hshape := shape_link s hs.toShape (ChainHashNode.mk key value (hash key)) _ rfl
    (s.nsize + 1)
  rw [linkNew_eq s hs.toShape key value (hash key) _ hi]
  refine ⟨{ toShape := hshape, nsize_eq := ?_, hash_ok := ?_, nodup := ?_ }, hperm⟩
  · rw [hperm.length_eq]
    show s.nsize + 1 = (((nodes s).length + 1 : Nat) : Int)
    rw [hs.nsize_eq]
    push_cast
    rfl
  · intro n hn
    rcases List.mem_cons.1 (hperm.mem_iff.1 hn) with rfl | h
    · rfl
    · exact hs.hash_ok n h
  · rw [((hperm.map (fun n => n.key)).nodup_iff)]
    simp only [List.map_cons, List.nodup_cons, List.mem_map, not_exists, not_and]
    refine ⟨fun n hn hk => ?_, hs.nodup⟩
    have := mem_bucket_of_mem_nodes hash s hs n hn
    rw [hk] at this
    exact hnone n this hk

theorem set_of_some (hash : K → Nat) (s : ChainHash K V) (key : K) (value : V)
    (chain : List (ChainHashNode K V))
    (h : setLoop key value (s.array.getD (hash key % s.capacity) []) = some chain) :
    set hash s key value = { s with array := s.array.set (hash key % s.capacity) chain } := by
  unfold set
  simp only [h]

theorem set_of_none (hash : K → Nat) (s : ChainHash K V) (key : K) (value : V)
    (h : setLoop key value (s.array.getD (hash key % s.capacity) []) = none) :
    set hash s key value =
      if mustGrow (linkNew s key value (hash key) (hash key % s.capacity)) (hash key % s.capacity)
      then rehashing (linkNew s key value (hash key) (hash key % s.capacity))
      else linkNew s key value (hash key) (hash key % s.capacity) := by
  unfold set
  simp only [h]

theorem set_inv (hash : K → Nat) (s : ChainHash K V) (hs : Inv hash s) (key : K) (value : V) :
    Inv hash (set hash s key value) := by
  cases h : setLoop key value (s.array.getD (hash key % s.capacity) []) with
  | some chain =>
    rw [set_of_some hash s key value chain h]
    exact inv_replace hash s hs _ (index_lt s hs.toShape _) chain
      (setLoop_some_map key value _ chain h)
  | none =>
    rw [set_of_none hash s key value h]
    have h1 := (linkNew_inv hash s hs key value ((setLoop_eq_none_iff key value _).1 h)).1
    split
    · exact rehashing_inv hash _ h1
    · exact h1

theorem capacity_linkNew (s : ChainHash K V) (key : K) (value : V) (hashcode i : Nat) :
    (linkNew s key value hashcode i).capacity = s.capacity := rfl

theorem get_linkNew (hash : K → Nat) (s : ChainHash K V) (hs : Shape s) (key : K) (value : V)
    (key' : K) :
    get hash (linkNew s key value (hash key) (hash key % s.capacity)) key'
      = if key' = key then Except.ok value else get hash s key' := by
  have hi := index_lt s hs (hash key)
  unfold get
  simp only [capacity_linkNew]
  show getLoop key' ((s.array.set (hash key % s.capacity)
      (ChainHashNode.mk key value (hash key) :: s.array.getD (hash key % s.capacity) [])).getD
        (hash key' % s.capacity) []) = _
  by_cases hk : key' = key
  · subst hk
    rw [getD_set_self _ _ hi]
    simp [getLoop]
  · by_cases hidx : hash key % s.capacity = hash key' % s.capacity
    · rw [← hidx, getD_set_self _ _ hi]
      have hk2 : ¬ key = key' := fun h => hk h.symm
      simp [getLoop, hk, hk2]
    · rw [getD_set_ne _ _ _ hidx]
      simp [hk]

/-- Reading any key after a `set`: the key written reads the value written, every other key reads as before. -/
theorem get_set (hash : K → Nat) (s : ChainHash K V) (hs : Inv hash s) (key : K) (value : V)
    (key' : K) :
    get hash (set hash s key value) key'
      = if key' = key then Except.ok value else get hash s key' := by
  cases h : setLoop key value (s.array.getD (hash key % s.capacity) []) with
  | some chain =>
    have hi := index_lt s hs.toShape (hash key)
    rw [set_of_some hash s key value chain h]
    unfold get
    show getLoop key' ((s.array.set (hash key % s.capacity) chain).getD
      (hash key' % s.capacity) []) = _
    by_cases hidx : hash key % s.capacity = hash key' % s.capacity
    · rw [← hidx, getD_set_self _ _ hi, setLoop_some_get key value _ chain h key', hidx]
    · rw [getD_set_ne _ _ _ hidx]
      have hk : ¬ key' = key := fun h => hidx (by rw [h])
      simp [hk]
  | none =>
    rw [set_of_none hash s key value h]
    have h1 := (linkNew_inv hash s hs key value ((setLoop_eq_none_iff key value _).1 h)).1
    split
    · rw [get_rehashing hash _ h1, get_linkNew hash s hs.toShape]
    · exact get_linkNew hash s hs.toShape key value key'

theorem contains_set (hash : K → Nat) (s : ChainHash K V) (hs : Inv hash s) (key : K) (value : V)
    (key' : K) :
    contains hash (set hash s key value) key' = (decide (key' = key) || contains hash s key') := by
  have hg := get_set hash s hs key value key'
  have h1 := contains_iff_get hash (set hash s key value) key'
  have h2 := contains_iff_get hash s key'
  rw [hg] at h1
  by_cases hk : key' = key
  · subst hk
    simp only [if_true] at h1
    simp only [decide_True, Bool.true_or]
    exact h1.2 ⟨value, rfl⟩
  · simp only [hk, if_false] at h1
    simp only [hk, decide_False, Bool.false_or]
    cases hc : contains hash s key' with
    | true => exact h1.2 (h2.1 hc)
    | false =>
      cases hc2 : contains hash (set hash s key value) key' with
      | false => rfl
      | true => rw [h2.2 (h1.1 hc2)] at hc; cases hc

theorem nsize_set (hash : K → Nat) (s : ChainHash K V) (hs : Inv hash s) (key : K) (value : V) :
    (set hash s key value).nsize
      = s.nsize + (if contains hash s key = true then 0 else 1) := by
  cases h : setLoop key value (s.array.getD (hash key % s.capacity) []) with
  | some chain =>
    rw [set_of_some hash s key value chain h]
    have : contains hash s key = true :=
      (containsLoop_iff key _).2 (setLoop_some_mem key value _ chain h)
    simp [this]
  | none =>
    rw [set_of_none hash s key value h]
    have hc : contains hash s key = false :=
      (containsLoop_eq_false_iff key _).2 ((setLoop_eq_none_iff key value _).1 h)
    have h1 := (linkNew_inv hash s hs key value ((setLoop_eq_none_iff key value _).1 h)).1
    simp only [hc, Bool.false_eq_true, if_false]
    split
    · rw [(rehashing_shape _ h1.toShape).2.2.1]; rfl
    · rfl

end ChainHash

namespace ChainHash

variable {K V : Type} [DecidableEq K]

/-! ## `remove`: unlinking one node -/

theorem removeLoop_some_perm (key : K) (chain chain' : List (ChainHashNode K V))
    (h : removeLoop key chain = some chain') :
    ∃ n, n.key = key ∧ chain.Perm (n :: chain') := by
  induction chain generalizing chain' with
  | nil => simp [removeLoop] at h
  | cons c rest ih =>
    by_cases hc : c.key = key
    · simp only [removeLoop, hc, if_true, Option.some.injEq] at h
      subst h
      exact ⟨c, hc, List.Perm.refl _⟩
    · simp only [removeLoop, hc, if_false, Option.map_eq_some'] at h
      obtain ⟨r, hr, rfl⟩ := h
      obtain ⟨n, hn, hp⟩ := ih r hr
      exact ⟨n, hn, (List.Perm.cons c hp).trans (List.Perm.swap n c r)⟩

theorem remove_of_none (hash : K → Nat) (s : ChainHash K V) (key : K)
    (h : removeLoop key (s.array.getD (hash key % s.capacity) []) = none) :
    remove hash s key = (false, s) := by
  unfold remove
  simp only [h]

theorem remove_of_some (hash : K → Nat) (s : ChainHash K V) (key : K)
    (chain : List (ChainHashNode K V))
    (h : removeLoop key (s.array.getD (hash key % s.capacity) []) = some chain) :
    remove hash s key =
      (true,
        { array := s.array.set (hash key % s.capacity) chain
          nsize := s.nsize - 1
          capacity := s.capacity
          bucket_sizes := s.bucket_sizes.set (hash key % s.capacity)
            (s.bucket_sizes.getD (hash key % s.capacity) 0 - 1)
          usedBuckets :=
            if (s.bucket_sizes.set (hash key % s.capacity)
                (s.bucket_sizes.getD (hash key % s.capacity) 0 - 1)).getD
                  (hash key % s.capacity) 0 = 0
            then s.usedBuckets - 1 else s.usedBuckets }) := by
  unfold remove
  simp only [h]

/-- The table after a successful `remove`: the invariants hold and exactly one node, of that key, is gone. -/
theorem remove_some_spec (hash : K → Nat) (s : ChainHash K V) (hs : Inv hash s) (key : K)
    (chain : List (ChainHashNode K V))
    (h : removeLoop key (s.array.getD (hash key % s.capacity) []) = some chain) :
    Inv hash (remove hash s key).2
      ∧ ∃ n, n.key = key ∧ (nodes s).Perm (n :: nodes (remove hash s key).2) := by
  have hi := index_lt s hs.toShape (hash key)
  have hi2 : hash key % s.capacity < s.bucket_sizes.length := by
    rw [hs.sizes_eq]; simpa using hi
  obtain ⟨n, hnk, hperm⟩ := removeLoop_some_perm key _ chain h
  rw [remove_of_some hash s key chain h]
  simp only [getD_set_self _ _ hi2]
  rw [sizes_getD s hs.toShape _ hi]
  obtain ⟨A, B, hAB, hlen⟩ := exists_split s.array _ hi []
  have hset : s.array.set (hash key % s.capacity) chain = A ++ chain :: B := by
    rw [hAB, set_append_of_length _ _ _ _ _ hlen]
  have hs1 := hs.sizes_eq
  have hs2 := hs.used_eq
  have hs3 := hs.nsize_eq
  have hs4 := hs.nodup
  have hs5 := hs.hash_ok
  have hsl := hs.slot_ok
  have hlength := hperm.length_eq
  have hgetD := List.getD_eq_getElem s.array [] hi
  generalize hcdef : s.array.getD (hash key % s.capacity) [] = c at hAB hperm hlength hgetD
  have hnodes : (nodes s).Perm (n :: (A ++ chain :: B).flatten) := by
    unfold nodes
    rw [hAB]
    simp only [List.flatten_append, List.flatten_cons]
    refine (List.Perm.append_left _ (List.Perm.append_right _ hperm)).trans ?_
    simp only [List.cons_append]
    exact List.perm_middle
  refine ⟨{ cap_pos := hs.cap_pos, arr_len := ?_, sizes_eq := ?_, used_eq := ?_, slot_ok := ?_,
            nsize_eq := ?_, hash_ok := ?_, nodup := ?_ }, n, hnk, ?_⟩
  · simpa using hs.arr_len
  · show s.bucket_sizes.set (hash key % s.capacity) ((c.length : Int) - 1)
      = (s.array.set (hash key % s.capacity) chain).map (fun chain => (chain.length : Int))
    rw [hset, hs1, hAB, List.map_append, List.map_cons,
      set_append_of_length _ _ _ _ _ (by simpa using hlen)]
    simp only [List.map_append, List.map_cons]
    rw [hlength]
    simp
  · show (if (c.length : Int) - 1 = 0 then s.usedBuckets - 1 else s.usedBuckets)
      = ((s.array.set (hash key % s.capacity) chain).countP (fun chain => !chain.isEmpty) : Int)
    rw [hset, hs2, hAB]
    simp only [List.countP_append, List.countP_cons]
    rw [hlength]
    cases chain <;> cases c <;> simp at hlength ⊢ <;> omega
  · intro j hj m hm
    show m.hashcode % s.capacity = j
    have hj2 : j < s.array.length := by simpa using hj
    have hm' : m ∈ (s.array.set (hash key % s.capacity) chain)[j] := hm
    rw [List.getElem_set] at hm'
    split at hm'
    · rename_i hij
      have hmc : m ∈ c := hperm.mem_iff.2 (List.mem_cons_of_mem _ hm')
      rw [hgetD] at hmc
      rw [← hij]
      exact hsl _ hi m hmc
    · exact hsl j hj2 m hm'
  · show s.nsize - 1 = ((s.array.set (hash key % s.capacity) chain).flatten.length : Int)
    rw [hset, hs3, hnodes.length_eq]
    simp
  · intro m hm
    have hm' : m ∈ (s.array.set (hash key % s.capacity) chain).flatten := hm
    rw [hset] at hm'
    exact hs5 m (hnodes.mem_iff.2 (List.mem_cons_of_mem _ hm'))
  · show ((s.array.set (hash key % s.capacity) chain).flatten.map (fun n => n.key)).Nodup
    rw [hset]
    have := ((hnodes.map (fun n => n.key)).nodup_iff).1 hs4
    exact (List.nodup_cons.1 this).2
  · show (nodes s).Perm (n :: (s.array.set (hash key % s.capacity) chain).flatten)
    rw [hset]
    exact hnodes

theorem remove_inv (hash : K → Nat) (s : ChainHash K V) (hs : Inv hash s) (key : K) :
    Inv hash (remove hash s key).2 := by
  cases h : removeLoop key (s.array.getD (hash key % s.capacity) []) with
  | some chain => exact (remove_some_spec hash s hs key chain h).1
  | none => rw [remove_of_none hash s key h]; exact hs

theorem reachable_inv (hash : K → Nat) (s : ChainHash K V) (h : Reachable hash s) :
    Inv hash s := by
  induction h with
  | construct c0 h0 =>
    refine { toShape := shape_empty c0 h0 0, nsize_eq := ?_, hash_ok := ?_, nodup := ?_ }
    · simp [construct, nodes]
    · intro n hn
      simp [construct, nodes] at hn
    · simp [construct, nodes]
  | set key value _ ih => exact set_inv hash _ ih key value
  | remove key _ ih => exact remove_inv hash _ ih key

end ChainHash

namespace ChainHash

variable {K V : Type} [DecidableEq K]

/-! ## Sequences of calls -/

theorem construct_inv (hash : K → Nat) (c0 : Nat) (h : 0 < c0) :
    Inv hash (construct c0 : ChainHash K V) :=
  reachable_inv hash _ (Reachable.construct c0 h)

theorem contains_construct (hash : K → Nat) (c0 : Nat) (key : K) :
    contains hash (construct c0 : ChainHash K V) key = false := by
  unfold contains construct
  simp only [getD_replicate_self]
  rfl

theorem setAll_append_singleton (hash : K → Nat) (s : ChainHash K V) (kvs : List (K × V))
    (kv : K × V) :
    setAll hash s (kvs ++ [kv]) = set hash (setAll hash s kvs) kv.1 kv.2 := by
  simp [setAll, List.foldl_append]

theorem setAll_inv (hash : K → Nat) (s : ChainHash K V) (hs : Inv hash s) (kvs : List (K × V)) :
    Inv hash (setAll hash s kvs) := by
  induction kvs using List.reverseRecOn with
  | nil => exact hs
  | append_singleton l a ih =>
    rw [setAll_append_singleton]
    exact set_inv hash _ ih _ _

theorem contains_setAll_construct (hash : K → Nat) (c0 : Nat) (h0 : 0 < c0) (kvs : List (K × V))
    (key : K) :
    contains hash (setAll hash (construct c0) kvs) key = true ↔ key ∈ kvs.map Prod.fst := by
  induction kvs using List.reverseRecOn with
  | nil => simp [setAll, contains_construct]
  | append_singleton l a ih =>
    rw [setAll_append_singleton,
      contains_set hash _ (setAll_inv hash _ (construct_inv hash c0 h0) l)]
    simp only [Bool.or_eq_true, decide_eq_true_eq, ih, List.map_append, List.map_cons,
      List.map_nil, List.mem_append, List.mem_singleton]
    tauto

theorem dedup_length_append_singleton (l : List K) (a : K) :
    ((l ++ [a]).dedup.length : Int) = (l.dedup.length : Int) + (if a ∈ l then 0 else 1) := by
  rw [← List.card_toFinset, ← List.card_toFinset, List.toFinset_append]
  by_cases h : a ∈ l
  · have : [a].toFinset ⊆ l.toFinset := by
      intro x hx
      simp only [List.toFinset_cons, List.toFinset_nil, insert_emptyc_eq,
        Finset.mem_singleton] at hx
      subst hx
      exact List.mem_toFinset.2 h
    rw [Finset.union_eq_left.2 this]
    simp [h]
  · have hd : Disjoint l.toFinset [a].toFinset := by
      simp [h]
    rw [Finset.card_union_of_disjoint hd]
    simp [h]

end ChainHash

namespace ChainHash

variable {K V : Type} [DecidableEq K]

theorem reachable_setAll (hash : K → Nat) (s : ChainHash K V) (hs : Reachable hash s)
    (kvs : List (K × V)) : Reachable hash (setAll hash s kvs) := by
  induction kvs using List.reverseRecOn with
  | nil => exact hs
  | append_singleton l a ih =>
    rw [setAll_append_singleton]
    exact Reachable.set _ _ ih

theorem remove_absent (hash : K → Nat) (s : ChainHash K V) (key : K)
    (h : contains hash s key = false) : remove hash s key = (false, s) :=
  remove_of_none hash s key
    ((removeLoop_eq_none_iff key _).2 ((containsLoop_eq_false_iff key _).1 h))

theorem remove_present (hash : K → Nat) (s : ChainHash K V) (hs : Inv hash s) (key : K)
    (h : contains hash s key = true) :
    (remove hash s key).1 = true ∧ (remove hash s key).2.nsize = s.nsize - 1
      ∧ Inv hash (remove hash s key).2
      ∧ ∀ n ∈ nodes (remove hash s key).2, n.key ≠ key := by
  cases hr : removeLoop key (s.array.getD (hash key % s.capacity) []) with
  | none =>
    have := (containsLoop_eq_false_iff key _).2 ((removeLoop_eq_none_iff key _).1 hr)
    unfold contains at h
    simp only [] at h
    rw [this] at h
    cases h
  | some chain =>
    obtain ⟨hinv, n, hnk, hperm⟩ := remove_some_spec hash s hs key chain hr
    refine ⟨?_, ?_, hinv, ?_⟩
    · rw [remove_of_some hash s key chain hr]
    · rw [remove_of_some hash s key chain hr]
    · intro m hm hmk
      have hnd := ((hperm.map (fun n => n.key)).nodup_iff).1 hs.nodup
      simp only [List.map_cons, List.nodup_cons, List.mem_map, not_exists, not_and] at hnd
      exact hnd.1 m hm (hmk.trans hnk.symm)

theorem contains_remove_self (hash : K → Nat) (s : ChainHash K V) (hs : Inv hash s) (key : K) :
    contains hash (remove hash s key).2 key = false := by
  cases hc : contains hash s key with
  | false => rw [remove_absent hash s key hc]; exact hc
  | true =>
    obtain ⟨_, _, hinv, hno⟩ := remove_present hash s hs key hc
    cases hc2 : contains hash (remove hash s key).2 key with
    | false => rfl
    | true =>
      obtain ⟨n, hn, hk⟩ := (contains_iff hash _ hinv key).1 hc2
      exact absurd hk (hno n hn)

theorem filter_key_eq_singleton (chain : List (ChainHashNode K V))
    (hnd : (chain.map (fun n => n.key)).Nodup) (n : ChainHashNode K V) (hn : n ∈ chain) :
    chain.filter (fun m => decide (m.key = n.key)) = [n] := by
  induction chain with
  | nil => simp at hn
  | cons c rest ih =>
    simp only [List.map_cons, List.nodup_cons, List.mem_map, not_exists, not_and] at hnd
    rcases List.mem_cons.1 hn with rfl | hmem
    · have : rest.filter (fun m => decide (m.key = n.key)) = [] := by
        rw [List.filter_eq_nil_iff]
        intro m hm
        simpa using hnd.1 m hm
      simp [List.filter_cons, this]
    · have hne : ¬ c.key = n.key := fun h => hnd.1 n hmem h.symm
      simp [List.filter_cons, hne, ih hnd.2 hmem]

theorem map_range_getD {α β : Type} (arr : List α) (d : α) (f : α → β) :
    (List.range arr.length).map (fun i => f (arr.getD i d)) = arr.map f := by
  apply List.ext_getElem
  · simp
  · intro i h1 h2
    have hi : i < arr.length := by simpa using h2
    simp [List.getElem?_eq_getElem hi]

theorem run_inv (hash : K → Nat) (s : ChainHash K V) (hs : Inv hash s) (calls : List (Call K V)) :
    Inv hash (run hash s calls) := by
  induction calls generalizing s with
  | nil => exact hs
  | cons c rest ih =>
    show Inv hash (run hash (step hash s c).2 rest)
    apply ih
    cases c with
    | get key => exact hs
    | contains key => exact hs
    | set key value => exact set_inv hash s hs key value
    | remove key => exact remove_inv hash s hs key

theorem capacity_remove (hash : K → Nat) (s : ChainHash K V) (key : K) :
    (remove hash s key).2.capacity = s.capacity := by
  cases hr : removeLoop key (s.array.getD (hash key % s.capacity) []) with
  | none => rw [remove_of_none hash s key hr]
  | some chain => rw [remove_of_some hash s key chain hr]

theorem capacity_set (hash : K → Nat) (s : ChainHash K V) (hs : Shape s) (key : K) (value : V) :
    (set hash s key value).capacity = s.capacity
      ∨ (set hash s key value).capacity = s.capacity * 2 := by
  cases h : setLoop key value (s.array.getD (hash key % s.capacity) []) with
  | some chain => rw [set_of_some hash s key value chain h]; exact Or.inl rfl
  | none =>
    rw [set_of_none hash s key value h]
    have hi := index_lt s hs (hash key)
    have hshape : Shape (linkNew s key value (hash key) (hash key % s.capacity)) := by
      rw [linkNew_eq s hs key value (hash key) _ hi]
      exact shape_link s hs (ChainHashNode.mk key value (hash key)) _ rfl (s.nsize + 1)
    split
    · right
      rw [(rehashing_shape _ hshape).2.1]
      rfl
    · left
      rfl

end ChainHash

namespace ChainHash

variable {K V : Type} [DecidableEq K]

theorem capacity_step (hash : K → Nat) (s : ChainHash K V) (hs : Shape s) (c : Call K V) :
    (step hash s c).2.capacity = s.capacity ∨ (step hash s c).2.capacity = s.capacity * 2 := by
  cases c with
  | get key => exact Or.inl rfl
  | contains key => exact Or.inl rfl
  | set key value => exact capacity_set hash s hs key value
  | remove key => exact Or.inl (capacity_remove hash s key)

theorem step_inv (hash : K → Nat) (s : ChainHash K V) (hs : Inv hash s) (c : Call K V) :
    Inv hash (step hash s c).2 := by
  cases c with
  | get key => exact hs
  | contains key => exact hs
  | set key value => exact set_inv hash s hs key value
  | remove key => exact remove_inv hash s hs key

theorem run_append (hash : K → Nat) (s : ChainHash K V) (a b : List (Call K V)) :
    run hash s (a ++ b) = run hash (run hash s a) b := by
  simp [run, List.foldl_append]

theorem capacity_run (hash : K → Nat) (s : ChainHash K V) (hs : Inv hash s)
    (calls : List (Call K V)) : ∃ k : Nat, (run hash s calls).capacity = s.capacity * 2 ^ k := by
  induction calls generalizing s with
  | nil => exact ⟨0, by simp [run]⟩
  | cons c rest ih =>
    obtain ⟨k, hk⟩ := ih (step hash s c).2 (step_inv hash s hs c)
    have hrun : run hash s (c :: rest) = run hash (step hash s c).2 rest := rfl
    rcases capacity_step hash s hs.toShape c with h | h
    · exact ⟨k, by rw [hrun, hk, h]⟩
    · exact ⟨k + 1, by rw [hrun, hk, h, pow_succ, Nat.mul_assoc, Nat.mul_comm 2]⟩

end ChainHash

namespace ChainHash

variable {K V : Type} [DecidableEq K]

/-! ## The growth condition -/

theorem mustGrow_iff (s : ChainHash K V) (index : Nat) :
    mustGrow s index ↔
      ((0 < s.capacity ∧ 13421773 * (s.capacity : Int) < s.usedBuckets * 16777216)
        ∨ s.bucket_sizes.getD index 0 > maxColision) := by
  unfold mustGrow fillFactor maxFillFactor
  refine or_congr ?_ Iff.rfl
  rcases Nat.eq_zero_or_pos s.capacity with h | h
  · rw [h]; norm_num
  · have hc : (0 : ℚ) < (s.capacity : ℚ) := by exact_mod_cast h
    rw [gt_iff_lt, div_lt_div_iff₀ (by norm_num) hc]
    constructor
    · intro h2
      refine ⟨h, ?_⟩
      have : ((13421773 * (s.capacity : Int) : Int) : ℚ)
          < ((s.usedBuckets * 16777216 : Int) : ℚ) := by
        push_cast; linarith
      exact_mod_cast this
    · rintro ⟨_, h2⟩
      have : ((13421773 * (s.capacity : Int) : Int) : ℚ)
          < ((s.usedBuckets * 16777216 : Int) : ℚ) := by exact_mod_cast h2
      push_cast at this
      linarith

theorem set_eq_linkNew (hash : K → Nat) (s : ChainHash K V) (key : K) (value : V)
    (hnone : setLoop key value (s.array.getD (hash key % s.capacity) []) = none)
    (hng : ¬ mustGrow (linkNew s key value (hash key) (hash key % s.capacity))
      (hash key % s.capacity)) :
    set hash s key value = linkNew s key value (hash key) (hash key % s.capacity) := by
  rw [set_of_none hash s key value hnone, if_neg hng]

/-- The exact growth rule of `set` for a key that is not in the table. -/
theorem capacity_set_new (hash : K → Nat) (s : ChainHash K V) (hs : Inv hash s) (key : K)
    (value : V) (hk : contains hash s key = false) :
    ((set hash s key value).capacity = 2 * s.capacity
        ↔ mustGrow (linkNew s key value (hash key) (hash key % s.capacity))
            (hash key % s.capacity))
      ∧ (¬ mustGrow (linkNew s key value (hash key) (hash key % s.capacity))
            (hash key % s.capacity) → (set hash s key value).capacity = s.capacity) := by
  have hnone := (setLoop_eq_none_iff key value _).2 ((containsLoop_eq_false_iff key _).1 hk)
  have h1 := (linkNew_inv hash s hs key value ((setLoop_eq_none_iff key value _).1 hnone)).1
  rw [set_of_none hash s key value hnone]
  have hpos := hs.cap_pos
  by_cases hg : mustGrow (linkNew s key value (hash key) (hash key % s.capacity))
      (hash key % s.capacity)
  · rw [if_pos hg, (rehashing_shape _ h1.toShape).2.1, capacity_linkNew]
    exact ⟨⟨fun _ => hg, fun _ => Nat.mul_comm _ _⟩, fun h => absurd hg h⟩
  · rw [if_neg hg, capacity_linkNew]
    exact ⟨⟨fun h => by omega, fun h => absurd h hg⟩, fun _ => rfl⟩

/-- Below `2^24` buckets the `float` threshold and the fraction `4/5` separate the same fill factors. -/
theorem fillFactor_gt_iff_of_small (s : ChainHash K V) (h0 : 0 < s.capacity)
    (hsmall : s.capacity < 16777216) :
    fillFactor s > maxFillFactor ↔ fillFactor s > 4 / 5 := by
  have hc : (0 : ℚ) < (s.capacity : ℚ) := by exact_mod_cast h0
  unfold fillFactor maxFillFactor
  rw [gt_iff_lt, gt_iff_lt, div_lt_div_iff₀ (by norm_num) hc, div_lt_div_iff₀ (by norm_num) hc]
  have e1 : (13421773 : ℚ) * (s.capacity : ℚ) < (s.usedBuckets : ℚ) * 16777216
      ↔ 13421773 * (s.capacity : Int) < s.usedBuckets * 16777216 := by
    constructor
    · intro h; exact_mod_cast h
    · intro h; exact_mod_cast h
  have e2 : (4 : ℚ) * (s.capacity : ℚ) < (s.usedBuckets : ℚ) * 5
      ↔ 4 * (s.capacity : Int) < s.usedBuckets * 5 := by
    constructor
    · intro h; exact_mod_cast h
    · intro h; exact_mod_cast h
  rw [e1, e2]
  omega

/-- The growth rule of `set` with the threshold written as `4/5`, for tables of fewer than `2^24` buckets. -/
theorem capacity_set_new_of_small (hash : K → Nat) (s : ChainHash K V) (hs : Inv hash s)
    (hsmall : s.capacity < 16777216) (key : K) (value : V)
    (hk : contains hash s key = false) :
    ((set hash s key value).capacity = 2 * s.capacity
        ↔ (fillFactor (linkNew s key value (hash key) (hash key % s.capacity)) > 4 / 5
            ∨ (linkNew s key value (hash key) (hash key % s.capacity)).bucket_sizes.getD
                (hash key % s.capacity) 0 > 3))
      ∧ (¬ (fillFactor (linkNew s key value (hash key) (hash key % s.capacity)) > 4 / 5
            ∨ (linkNew s key value (hash key) (hash key % s.capacity)).bucket_sizes.getD
                (hash key % s.capacity) 0 > 3)
          → (set hash s key value).capacity = s.capacity) := by
  have h := capacity_set_new hash s hs key value hk
  have e : mustGrow (linkNew s key value (hash key) (hash key % s.capacity))
        (hash key % s.capacity)
      ↔ (fillFactor (linkNew s key value (hash key) (hash key % s.capacity)) > 4 / 5
          ∨ (linkNew s key value (hash key) (hash key % s.capacity)).bucket_sizes.getD
              (hash key % s.capacity) 0 > 3) := by
    unfold mustGrow
    rw [fillFactor_gt_iff_of_small _ (by rw [capacity_linkNew]; exact hs.cap_pos)
      (by rw [capacity_linkNew]; exact hsmall)]
    rfl
  rw [← e]
  exact h

/-! ## A table with one key per bucket -/

theorem replicate_sub_succ {α : Type} (c n : Nat) (h : n < c) (x : α) :
    List.replicate (c - n) x = x :: List.replicate (c - (n + 1)) x := by
  obtain ⟨m, rfl⟩ : ∃ m, c = n + 1 + m := ⟨c - (n + 1), by omega⟩
  have e1 : n + 1 + m - n = m + 1 := by omega
  have e2 : n + 1 + m - (n + 1) = m := by omega
  rw [e1, e2, List.replicate_succ]

theorem spread_chain (c n : Nat) (h : n < c) : (spread c n).array.getD n [] = [] := by
  have hlenA : ((List.range n).map (fun i => [ChainHashNode.mk i (0 : Int) i])).length = n := by
    simp
  unfold spread
  simp only []
  rw [replicate_sub_succ c n h, getD_append_of_length _ _ _ _ n hlenA]

theorem linkNew_spread (c n : Nat) (h : n < c) :
    linkNew (spread c n) n 0 n n = spread c (n + 1) := by
  have hlenA : ((List.range n).map (fun i => [ChainHashNode.mk i (0 : Int) i])).length = n := by
    simp
  have hlenS : (List.replicate n (1 : Int)).length = n := by simp
  have hsize : (spread c n).bucket_sizes.getD n 0 = 0 := by
    unfold spread
    simp only []
    rw [replicate_sub_succ c n h, getD_append_of_length _ _ _ _ n hlenS]
  unfold linkNew
  rw [spread_chain c n h, hsize]
  unfold spread
  simp only [ChainHash.mk.injEq]
  refine ⟨?_, ?_, trivial, ?_, ?_⟩
  · rw [replicate_sub_succ c n h ([] : List (ChainHashNode Nat Int)),
      set_append_of_length _ _ _ _ n hlenA, List.range_succ, List.map_append]
    simp
  · push_cast; rfl
  · rw [replicate_sub_succ c n h (0 : Int), set_append_of_length _ _ _ _ n hlenS,
      List.replicate_succ']
    simp
  · simp

theorem set_spread (c n : Nat) (h : n < c) (hfill : (n + 1) * 16777216 ≤ 13421773 * c) :
    set id (spread c n) n 0 = spread c (n + 1) := by
  have hmod : n % c = n := Nat.mod_eq_of_lt h
  have hlenS : (List.replicate n (1 : Int)).length = n := by simp
  have hcap : (spread c n).capacity = c := rfl
  have hlink := linkNew_spread c n h
  have hset := set_eq_linkNew id (spread c n) n 0
    (by rw [hcap]; show setLoop n 0 ((spread c n).array.getD (n % c) []) = none
        rw [hmod, spread_chain c n h]; rfl)
    (by
      rw [hcap]
      show ¬ mustGrow (linkNew (spread c n) n 0 n (n % c)) (n % c)
      rw [hmod, hlink, mustGrow_iff]
      have hs1 : (spread c (n + 1)).bucket_sizes.getD n 0 = 1 := by
        unfold spread
        simp only []
        rw [List.replicate_succ', List.append_assoc]
        exact getD_append_of_length _ _ _ _ n hlenS
      rw [hs1]
      unfold spread maxColision
      simp only []
      rintro (⟨_, h2⟩ | h2)
      · push_cast at h2
        omega
      · exact absurd h2 (by decide))
  rw [hset, hcap]
  show linkNew (spread c n) n 0 n (n % c) = _
  rw [hmod, hlink]

theorem reachable_spread (c n : Nat) (h0 : 0 < c) (h : n ≤ c)
    (hfill : n * 16777216 ≤ 13421773 * c) : Reachable id (spread c n) := by
  induction n with
  | zero =>
    have : spread c 0 = construct c := by simp [spread, construct]
    rw [this]
    exact Reachable.construct c h0
  | succ m ih =>
    rw [← set_spread c m (by omega) hfill]
    exact Reachable.set m 0 (ih (by omega) (by omega))

theorem contains_spread (c n : Nat) (h : n < c) : contains id (spread c n) n = false := by
  have hlenA : ((List.range n).map (fun i => [ChainHashNode.mk i (0 : Int) i])).length = n := by
    simp
  unfold contains
  show containsLoop n ((spread c n).array.getD (n % c) []) = false
  rw [Nat.mod_eq_of_lt h]
  unfold spread
  simp only []
  rw [replicate_sub_succ c n h, getD_append_of_length _ _ _ _ n hlenA]
  rfl

end ChainHash

namespace ChainHash

variable {K V : Type} [DecidableEq K]

/-! ## Indexed calls and the bucket iterator -/

theorem bucket_size_of_valid (s : ChainHash K V) (hs : Shape s) (index : Int) (h0 : 0 ≤ index)
    (h1 : index < s.capacity) :
    bucket_size s index = Except.ok ((s.array.getD index.toNat []).length : Int) := by
  have hcond : ¬ (index < 0 ∨ index ≥ (s.capacity : Int)) := by omega
  unfold bucket_size
  rw [if_neg hcond, sizes_getD s hs index.toNat (by rw [hs.arr_len]; omega)]

theorem collect_chain [DecidableEq V] (chain : List (ChainHashNode K V)) (fuel : Nat)
    (h : chain.length ≤ fuel) :
    ChainHashListIterator.collect fuel (ChainHashListIterator.mk chain)
      (ChainHashListIterator.mk []) = some chain := by
  induction chain generalizing fuel with
  | nil => cases fuel <;> simp [ChainHashListIterator.collect, ChainHashListIterator.ne]
  | cons c rest ih =>
    cases fuel with
    | zero => simp at h
    | succ fuel =>
      have hr : rest.length ≤ fuel := by simpa using h
      simp [ChainHashListIterator.collect, ChainHashListIterator.ne,
        ChainHashListIterator.deref, ChainHashListIterator.next, ih fuel hr]

theorem collect_chain_short [DecidableEq V] (chain : List (ChainHashNode K V)) (fuel : Nat)
    (h : fuel < chain.length) :
    ChainHashListIterator.collect fuel (ChainHashListIterator.mk chain)
      (ChainHashListIterator.mk []) = none := by
  induction chain generalizing fuel with
  | nil => simp at h
  | cons c rest ih =>
    cases fuel with
    | zero => simp [ChainHashListIterator.collect, ChainHashListIterator.ne]
    | succ fuel =>
      have hr : fuel < rest.length := by simpa using h
      simp [ChainHashListIterator.collect, ChainHashListIterator.ne,
        ChainHashListIterator.deref, ChainHashListIterator.next, ih fuel hr]

/-- The records of bucket `i` are the records that `get` finds under the keys of bucket `i`. -/
theorem mem_bucket_iff_get (hash : K → Nat) (s : ChainHash K V) (hs : Inv hash s) (i : Nat)
    (hi : i < s.capacity) (k : K) (v : V) :
    (∃ n ∈ s.array.getD i [], n.key = k ∧ n.value = v)
      ↔ (get hash s k = Except.ok v ∧ hash k % s.capacity = i) := by
  have hlt : i < s.array.length := by rw [hs.arr_len]; exact hi
  constructor
  · rintro ⟨n, hn, hk, hv⟩
    have hnodes := bucket_subset_nodes s i n hn
    refine ⟨(get_ok_iff hash s hs k v).2 ⟨n, hnodes, hk, hv⟩, ?_⟩
    rw [List.getD_eq_getElem _ _ hlt] at hn
    rw [← hk, ← hs.hash_ok n hnodes]
    exact hs.slot_ok i hlt n hn
  · rintro ⟨hg, hidx⟩
    obtain ⟨n, hn, hk, hv⟩ := (get_ok_iff hash s hs k v).1 hg
    have := mem_bucket_of_mem_nodes hash s hs n hn
    rw [hk, hidx] at this
    exact ⟨n, this, hk, hv⟩

theorem countP_eq_range_filter {α : Type} (arr : List α) (d : α) (p : α → Bool) :
    arr.countP p = ((List.range arr.length).filter (fun i => p (arr.getD i d))).length := by
  rw [← List.countP_eq_length_filter]
  have h : (List.range arr.length).map (fun i => arr.getD i d) = arr := by
    have := map_range_getD arr d (fun x => x)
    simpa using this
  conv_lhs => rw [← h]
  rw [List.countP_map]
  rfl

end ChainHash

namespace ChainHash

variable {K V : Type} [DecidableEq K]

/-! ## `set` on a present key, seen on the whole array -/

theorem map_update_of_absent (key : K) (value : V) (chain : List (ChainHashNode K V))
    (h : ∀ n ∈ chain, n.key ≠ key) :
    chain.map (fun n => if n.key = key then { n with value := value } else n) = chain := by
  induction chain with
  | nil => rfl
  | cons c rest ih =>
    have hc : ¬ c.key = key := h c (List.mem_cons_self _ _)
    simp only [List.map_cons, hc, if_false]
    rw [ih (fun n hn => h n (List.mem_cons_of_mem _ hn))]

theorem setLoop_some_eq_map (key : K) (value : V) (chain chain' : List (ChainHashNode K V))
    (hnd : (chain.map (fun n => n.key)).Nodup) (h : setLoop key value chain = some chain') :
    chain' = chain.map (fun n => if n.key = key then { n with value := value } else n) := by
  induction chain generalizing chain' with
  | nil => simp [setLoop] at h
  | cons c rest ih =>
    simp only [List.map_cons, List.nodup_cons, List.mem_map, not_exists, not_and] at hnd
    by_cases hc : c.key = key
    · simp only [setLoop, hc, if_true, Option.some.injEq] at h
      subst h
      have hrest : ∀ n ∈ rest, n.key ≠ key := fun n hn hk => hnd.1 n hn (hk.trans hc.symm)
      simp only [List.map_cons, hc, if_true]
      rw [map_update_of_absent key value rest hrest]
    · simp only [setLoop, hc, if_false, Option.map_eq_some'] at h
      obtain ⟨r, hr, rfl⟩ := h
      simp only [List.map_cons, hc, if_false]
      rw [ih r hnd.2 hr]

/-- A `set` on a present key is the table with the value of that key's node replaced, and nothing else. -/
theorem set_present_eq (hash : K → Nat) (s : ChainHash K V) (hs : Inv hash s) (key : K)
    (value : V) (hk : contains hash s key = true) :
    set hash s key value =
      { s with
        array := s.array.map (fun chain =>
          chain.map (fun n => if n.key = key then { n with value := value } else n)) } := by
  have hi := index_lt s hs.toShape (hash key)
  cases h : setLoop key value (s.array.getD (hash key % s.capacity) []) with
  | none =>
    have := (containsLoop_eq_false_iff key _).2 ((setLoop_eq_none_iff key value _).1 h)
    unfold contains at hk
    simp only [] at hk
    rw [this] at hk
    cases hk
  | some chain =>
    rw [set_of_some hash s key value chain h]
    congr 1
    have hchain := setLoop_some_eq_map key value _ chain (bucket_nodup hash s hs _) h
    apply List.ext_getElem
    · simp
    · intro j h1 h2
      have hj : j < s.array.length := by simpa using h1
      rw [List.getElem_set, List.getElem_map]
      split
      · rename_i hij
        subst hij
        rw [hchain, List.getD_eq_getElem _ _ hi]
      · rename_i hij
        symm
        apply map_update_of_absent
        intro n hn hkey
        have hnodes : n ∈ nodes s := (mem_flatten_iff_getElem _ _).2 ⟨j, hj, hn⟩
        have h3 := hs.slot_ok j hj n hn
        rw [hs.hash_ok n hnodes, hkey] at h3
        exact hij h3

/-! ## `remove` and the other keys -/

theorem set_new_mem_bucket (hash : K → Nat) (s : ChainHash K V) (hs : Inv hash s) (key : K)
    (value : V) :
    ChainHashNode.mk key value (hash key)
      ∈ (set hash s key value).array.getD (hash key % (set hash s key value).capacity) [] := by
  have hinv := set_inv hash s hs key value
  have hget : get hash (set hash s key value) key = Except.ok value := by
    rw [get_set hash s hs, if_pos rfl]
  obtain ⟨n, hn, hk, hv⟩ := (get_ok_iff hash _ hinv key value).1 hget
  have hh := hinv.hash_ok n hn
  have hmem := mem_bucket_of_mem_nodes hash _ hinv n hn
  have hn_eq : n = ChainHashNode.mk key value (hash key) := by
    cases n
    simp only [ChainHashNode.mk.injEq] at hk hv hh ⊢
    exact ⟨hk, hv, by rw [hh, hk]⟩
  rw [hn_eq] at hmem
  exact hmem

theorem set_new_head (hash : K → Nat) (s : ChainHash K V) (hs : Inv hash s) (key : K)
    (value : V) (hk : contains hash s key = false)
    (hcap : (set hash s key value).capacity = s.capacity) :
    (set hash s key value).array.getD (hash key % (set hash s key value).capacity) []
      = ChainHashNode.mk key value (hash key) :: s.array.getD (hash key % s.capacity) [] := by
  have hi := index_lt s hs.toShape (hash key)
  have hnone := (setLoop_eq_none_iff key value _).2 ((containsLoop_eq_false_iff key _).1 hk)
  have hng : ¬ mustGrow (linkNew s key value (hash key) (hash key % s.capacity))
      (hash key % s.capacity) := by
    intro hg
    have h2 := ((capacity_set_new hash s hs key value hk).1).2 hg
    have hpos := hs.cap_pos
    omega
  rw [hcap, set_eq_linkNew hash s key value hnone hng]
  show (s.array.set (hash key % s.capacity)
    (ChainHashNode.mk key value (hash key) :: s.array.getD (hash key % s.capacity) [])).getD
      (hash key % s.capacity) [] = _
  rw [getD_set_self _ _ hi]

/-! ## Keys that share a hash code -/

theorem length_le_of_keys (ks : List K) (chain : List (ChainHashNode K V)) (hnd : ks.Nodup)
    (h : ∀ k ∈ ks, ∃ n ∈ chain, n.key = k) : ks.length ≤ chain.length := by
  have hsub : ks ⊆ chain.map (fun n => n.key) := by
    intro k hk
    obtain ⟨n, hn, hkey⟩ := h k hk
    exact List.mem_map.2 ⟨n, hn, hkey⟩
  have := (List.subperm_of_subset hnd hsub).length_le
  simpa using this

/-- Present keys with one hash code sit in one bucket, whose chain is at least as long as their number. -/
theorem bucket_length_of_same_hash (hash : K → Nat) (s : ChainHash K V) (hs : Inv hash s)
    (h : Nat) (ks : List K) (hnd : ks.Nodup)
    (hks : ∀ k ∈ ks, contains hash s k = true ∧ hash k = h) :
    ks.length ≤ (s.array.getD (h % s.capacity) []).length := by
  apply length_le_of_keys ks _ hnd
  intro k hk
  obtain ⟨hc, hh⟩ := hks k hk
  obtain ⟨n, hn, hkey⟩ := (contains_iff hash s hs k).1 hc
  have := mem_bucket_of_mem_nodes hash s hs n hn
  rw [hkey, hh] at this
  exact ⟨n, this, hkey⟩

theorem set_same_hash_doubles (hash : K → Nat) (s : ChainHash K V) (hs : Inv hash s)
    (ks : List K) (hnd : ks.Nodup) (h3 : 3 ≤ ks.length) (key : K) (value : V)
    (hks : ∀ k ∈ ks, contains hash s k = true ∧ hash k = hash key)
    (hk : contains hash s key = false) :
    (set hash s key value).capacity = 2 * s.capacity
      ∧ ks.length + 1
          ≤ ((set hash s key value).array.getD
              (hash key % (set hash s key value).capacity) []).length := by
  have hi := index_lt s hs.toShape (hash key)
  have hi2 : hash key % s.capacity < s.bucket_sizes.length := by
    rw [hs.sizes_eq]; simpa using hi
  have hlen := bucket_length_of_same_hash hash s hs (hash key) ks hnd hks
  constructor
  · apply ((capacity_set_new hash s hs key value hk).1).2
    right
    show (s.bucket_sizes.set (hash key % s.capacity)
      (s.bucket_sizes.getD (hash key % s.capacity) 0 + 1)).getD (hash key % s.capacity) 0
        > maxColision
    rw [getD_set_self _ _ hi2, sizes_getD s hs.toShape _ hi]
    unfold maxColision
    omega
  · have hinv := set_inv hash s hs key value
    have hnd2 : (key :: ks).Nodup := by
      refine List.nodup_cons.2 ⟨fun hmem => ?_, hnd⟩
      rw [(hks key hmem).1] at hk
      cases hk
    have := bucket_length_of_same_hash hash _ hinv (hash key) (key :: ks) hnd2 (by
      intro k hkm
      rw [contains_set hash s hs]
      rcases List.mem_cons.1 hkm with rfl | hmem
      · simp
      · simp [(hks k hmem).1, (hks k hmem).2])
    simpa using this

end ChainHash

namespace ChainHash

variable {K V : Type} [DecidableEq K]

/-! ## The calls within the range of `int` -/

theorem setInt_of_some (hash : K → Nat) (s : ChainHash K V) (key : K) (value : V)
    (chain : List (ChainHashNode K V))
    (h : setLoop key value (s.array.getD (hash key % s.capacity) []) = some chain) :
    setInt hash s key value
      = some { s with array := s.array.set (hash key % s.capacity) chain } := by
  unfold setInt
  simp only [h]

theorem setInt_of_none (hash : K → Nat) (s : ChainHash K V) (key : K) (value : V)
    (h : setLoop key value (s.array.getD (hash key % s.capacity) []) = none) :
    setInt hash s key value =
      if s.nsize + 1 ≤ intMax then
        if mustGrow (linkNew s key value (hash key) (hash key % s.capacity))
            (hash key % s.capacity)
        then rehashingInt (linkNew s key value (hash key) (hash key % s.capacity))
        else some (linkNew s key value (hash key) (hash key % s.capacity))
      else none := by
  unfold setInt
  simp only [h]

/-- A `set` that completes on the machine leaves the table that `set` computes. -/
theorem setInt_some_eq (hash : K → Nat) (s t : ChainHash K V) (key : K) (value : V)
    (h : setInt hash s key value = some t) : t = set hash s key value := by
  cases hl : setLoop key value (s.array.getD (hash key % s.capacity) []) with
  | some chain =>
    rw [setInt_of_some hash s key value chain hl] at h
    rw [set_of_some hash s key value chain hl]
    exact (Option.some.inj h).symm
  | none =>
    rw [setInt_of_none hash s key value hl] at h
    rw [set_of_none hash s key value hl]
    by_cases h1 : s.nsize + 1 ≤ intMax
    · rw [if_pos h1] at h
      by_cases hg : mustGrow (linkNew s key value (hash key) (hash key % s.capacity))
          (hash key % s.capacity)
      · rw [if_pos hg] at h
        rw [if_pos hg]
        unfold rehashingInt at h
        split at h
        · exact (Option.some.inj h).symm
        · cases h
      · rw [if_neg hg] at h
        rw [if_neg hg]
        exact (Option.some.inj h).symm
    · rw [if_neg h1] at h
      cases h

theorem capacity_le_set (hash : K → Nat) (s : ChainHash K V) (hs : Shape s) (key : K)
    (value : V) : s.capacity ≤ (set hash s key value).capacity := by
  rcases capacity_set hash s hs key value with h | h <;> omega

theorem nsize_le_set (hash : K → Nat) (s : ChainHash K V) (hs : Inv hash s) (key : K)
    (value : V) : s.nsize ≤ (set hash s key value).nsize := by
  rw [nsize_set hash s hs key value]
  split <;> omega

/-- A `set` completes on the machine when the capacity and the size it leaves fit in an `int`. -/
theorem setInt_eq_some (hash : K → Nat) (s : ChainHash K V) (hs : Inv hash s) (key : K)
    (value : V) (hcap : ((set hash s key value).capacity : Int) ≤ intMax)
    (hsize : (set hash s key value).nsize ≤ intMax) :
    setInt hash s key value = some (set hash s key value) := by
  cases hl : setLoop key value (s.array.getD (hash key % s.capacity) []) with
  | some chain =>
    rw [setInt_of_some hash s key value chain hl, set_of_some hash s key value chain hl]
  | none =>
    have hc : contains hash s key = false :=
      (containsLoop_eq_false_iff key _).2 ((setLoop_eq_none_iff key value _).1 hl)
    have hn := nsize_set hash s hs key value
    rw [hc] at hn
    simp only [Bool.false_eq_true, if_false] at hn
    have h1 : s.nsize + 1 ≤ intMax := by rw [← hn]; exact hsize
    have hgrow := (capacity_set_new hash s hs key value hc).1
    rw [setInt_of_none hash s key value hl, if_pos h1]
    rw [set_of_none hash s key value hl] at hcap ⊢
    by_cases hg : mustGrow (linkNew s key value (hash key) (hash key % s.capacity))
        (hash key % s.capacity)
    · rw [if_pos hg] at hcap ⊢
      rw [if_pos hg]
      have h2 := hgrow.2 hg
      rw [set_of_none hash s key value hl, if_pos hg] at h2
      unfold rehashingInt
      rw [if_pos]
      rw [h2] at hcap
      rw [capacity_linkNew]
      push_cast at hcap
      omega
    · rw [if_neg hg, if_neg hg]

theorem setInt_eq_none_of_overflow (hash : K → Nat) (s : ChainHash K V) (key : K) (value : V)
    (hk : contains hash s key = false)
    (hg : mustGrow (linkNew s key value (hash key) (hash key % s.capacity))
      (hash key % s.capacity))
    (hover : intMax < (s.capacity : Int) * 2) : setInt hash s key value = none := by
  have hl := (setLoop_eq_none_iff key value _).2 ((containsLoop_eq_false_iff key _).1 hk)
  rw [setInt_of_none hash s key value hl]
  by_cases h1 : s.nsize + 1 ≤ intMax
  · rw [if_pos h1, if_pos hg]
    unfold rehashingInt
    rw [if_neg]
    rw [capacity_linkNew]
    omega
  · rw [if_neg h1]

/-- A new key that joins three or more present keys of its hash code cannot be
set once the capacity has reached half the range of `int`. -/
theorem setInt_same_hash_overflow (hash : K → Nat) (s : ChainHash K V) (hs : Inv hash s)
    (ks : List K) (hnd : ks.Nodup) (h3 : 3 ≤ ks.length) (key : K) (value : V)
    (hks : ∀ k ∈ ks, contains hash s k = true ∧ hash k = hash key)
    (hk : contains hash s key = false) (hover : intMax < (s.capacity : Int) * 2) :
    setInt hash s key value = none := by
  have hd := (set_same_hash_doubles hash s hs ks hnd h3 key value hks hk).1
  exact setInt_eq_none_of_overflow hash s key value hk
    (((capacity_set_new hash s hs key value hk).1).1 hd) hover

theorem setAllInt_append_singleton (hash : K → Nat) (s : ChainHash K V) (kvs : List (K × V))
    (kv : K × V) :
    setAllInt hash s (kvs ++ [kv])
      = (setAllInt hash s kvs).bind (fun t => setInt hash t kv.1 kv.2) := by
  simp [setAllInt, List.foldl_append]

/-- A sequence of `set` calls that completes on the machine leaves the table that `setAll` computes. -/
theorem setAllInt_some_eq (hash : K → Nat) (s t : ChainHash K V) (kvs : List (K × V))
    (h : setAllInt hash s kvs = some t) : t = setAll hash s kvs := by
  induction kvs using List.reverseRecOn generalizing t with
  | nil =>
    simp only [setAllInt, List.foldl_nil, Option.some.injEq] at h
    exact h.symm
  | append_singleton l a ih =>
    rw [setAllInt_append_singleton] at h
    cases hl : setAllInt hash s l with
    | none => rw [hl] at h; cases h
    | some u =>
      rw [hl] at h
      rw [setAll_append_singleton, ← ih u hl]
      exact setInt_some_eq hash u t a.1 a.2 h

/-- A sequence of `set` calls completes on the machine when the capacity and
the size of the table it leaves fit in an `int`: neither number ever decreases
along the way. -/
theorem setAllInt_eq_some (hash : K → Nat) (s : ChainHash K V) (hs : Inv hash s)
    (kvs : List (K × V)) (hcap : ((setAll hash s kvs).capacity : Int) ≤ intMax)
    (hsize : (setAll hash s kvs).nsize ≤ intMax) :
    setAllInt hash s kvs = some (setAll hash s kvs) := by
  induction kvs using List.reverseRecOn with
  | nil => rfl
  | append_singleton l a ih =>
    have hinv := setAll_inv hash s hs l
    rw [setAll_append_singleton] at hcap hsize
    have h1 := capacity_le_set hash _ hinv.toShape a.1 a.2
    have h2 := nsize_le_set hash _ hinv a.1 a.2
    rw [setAllInt_append_singleton, ih (by omega) (by omega), setAll_append_singleton]
    exact setInt_eq_some hash _ hinv a.1 a.2 hcap hsize

theorem setAllInt_none_append (hash : K → Nat) (s : ChainHash K V) (kvs : List (K × V))
    (kv : K × V) (h : setInt hash (setAll hash s kvs) kv.1 kv.2 = none) :
    setAllInt hash s (kvs ++ [kv]) = none := by
  rw [setAllInt_append_singleton]
  cases hl : setAllInt hash s kvs with
  | none => rfl
  | some u =>
    rw [setAllInt_some_eq hash s u kvs hl]
    exact h

end ChainHash

/-! ## The claims -/

namespace ChainHash

variable {K V : Type} [DecidableEq K]

/-- The table that `setAll` computes from a freshly constructed one: its size
is the number of distinct keys of the sequence, and `get` returns for every key
of the sequence the value of the last call made with that key. -/
theorem setAll_construct_spec (hash : K → Nat) (c0 : Nat) (h0 : 0 < c0) (kvs : List (K × V)) :
    size (setAll hash (construct c0) kvs) = ((kvs.map Prod.fst).dedup.length : Int)
      ∧ ∀ k ∈ kvs.map Prod.fst, ∃ pre v suf, kvs = pre ++ (k, v) :: suf
          ∧ (∀ p ∈ suf, p.1 ≠ k)
          ∧ get hash (setAll hash (construct c0) kvs) k = Except.ok v := by
  induction kvs using List.reverseRecOn with
  | nil =>
    refine ⟨by simp [setAll, size, construct], ?_⟩
    intro k hk
    simp at hk
  | append_singleton l a ih =>
    have hinv := setAll_inv hash _ (construct_inv (V := V) hash c0 h0) l
    rw [setAll_append_singleton]
    constructor
    · unfold size at ih ⊢
      rw [nsize_set hash _ hinv, ih.1, List.map_append, List.map_cons, List.map_nil,
        dedup_length_append_singleton]
      congr 1
      by_cases hm : a.1 ∈ l.map Prod.fst
      · rw [if_pos ((contains_setAll_construct hash c0 h0 l a.1).2 hm), if_pos hm]
      · have : ¬ contains hash (setAll hash (construct c0) l) a.1 = true :=
          fun h => hm ((contains_setAll_construct hash c0 h0 l a.1).1 h)
        rw [if_neg this, if_neg hm]
    · intro k hk
      rw [get_set hash _ hinv]
      by_cases hka : k = a.1
      · refine ⟨l, a.2, [], ?_, ?_, ?_⟩
        · rw [hka]
        · intro p hp; simp at hp
        · rw [if_pos hka]
      · have hkl : k ∈ l.map Prod.fst := by
          simp only [List.map_append, List.map_cons, List.map_nil, List.mem_append,
            List.mem_singleton] at hk
          rcases hk with h | h
          · exact h
          · exact absurd h hka
        obtain ⟨pre, v, suf, hl, hsuf, hget⟩ := ih.2 k hkl
        refine ⟨pre, v, suf ++ [a], ?_, ?_, ?_⟩
        · rw [hl]; simp
        · intro p hp
          rcases List.mem_append.1 hp with h | h
          · exact hsuf p h
          · rw [List.mem_singleton.1 h]
            exact fun h => hka h.symm
        · rw [if_neg hka]
          exact hget

end ChainHash

namespace ChainHash

variable {K V : Type} [DecidableEq K]

/-- C3. In every reachable state, `remove(k)` of a present key returns true,
lowers `size()` by exactly one, and afterwards `get(k)` fails with
`KeyNotFound` and `contains(k)` is false. -/
theorem C3_remove_present (hash : K → Nat) (s : ChainHash K V) (hr : Reachable hash s) (k : K)
    (hk : contains hash s k = true) :
    (remove hash s k).1 = true
      ∧ size (remove hash s k).2 = size s - 1
      ∧ get hash (remove hash s k).2 k = Except.error ChainError.keyNotFound
      ∧ contains hash (remove hash s k).2 k = false := by
  have hs := reachable_inv hash s hr
  obtain ⟨h1, h2, hinv, hno⟩ := remove_present hash s hs k hk
  exact ⟨h1, h2, (get_error_iff hash _ hinv k _).2 ⟨rfl, hno⟩, contains_remove_self hash s hs k⟩

/-- Witness of C3: removing the key 2 from the middle of the chain of the example table. -/
theorem C3_remove_present_witness :
    Reachable hashTimes4 exTable ∧ contains hashTimes4 exTable 2 = true
      ∧ ((remove hashTimes4 exTable 2).1 = true
        ∧ size (remove hashTimes4 exTable 2).2 = size exTable - 1
        ∧ get hashTimes4 (remove hashTimes4 exTable 2).2 2
            = Except.error ChainError.keyNotFound
        ∧ contains hashTimes4 (remove hashTimes4 exTable 2).2 2 = false) :=
  ⟨reachable_setAll hashTimes4 _ (Reachable.construct 4 (by decide)) _, by decide,
   C3_remove_present hashTimes4 exTable
     (reachable_setAll hashTimes4 _ (Reachable.construct 4 (by decide)) _) 2 (by decide)⟩

/-- C4. `remove(k)` of an absent key returns false and leaves the whole table
state as it was: size, capacity, usedBuckets, every bucket counter and every
chain.  This holds in every state, reachable or not. -/
theorem C4_remove_absent (hash : K → Nat) (s : ChainHash K V) (k : K)
    (hk : contains hash s k = false) : remove hash s k = (false, s) :=
  remove_absent hash s k hk

/-- Witness of C4: the key 5 is not in the example table. -/
theorem C4_remove_absent_witness :
    contains hashTimes4 exTable 5 = false ∧ remove hashTimes4 exTable 5 = (false, exTable) :=
  ⟨by decide, C4_remove_absent hashTimes4 exTable 5 (by decide)⟩

/-- C5. In every reachable state and for every key, present or absent, a second
`remove(k)` right after a first one returns false and leaves the state the
first call produced. -/
theorem C5_remove_twice (hash : K → Nat) (s : ChainHash K V) (hr : Reachable hash s) (k : K) :
    remove hash (remove hash s k).2 k = (false, (remove hash s k).2) :=
  remove_absent hash _ k (contains_remove_self hash s (reachable_inv hash s hr) k)

/-- Witness of C5: removing the key 1 twice from the example table. -/
theorem C5_remove_twice_witness :
    Reachable hashTimes4 exTable
      ∧ remove hashTimes4 (remove hashTimes4 exTable 1).2 1
          = (false, (remove hashTimes4 exTable 1).2) :=
  ⟨reachable_setAll hashTimes4 _ (Reachable.construct 4 (by decide)) _,
   C5_remove_twice hashTimes4 exTable
     (reachable_setAll hashTimes4 _ (Reachable.construct 4 (by decide)) _) 1⟩

end ChainHash

namespace ChainHash

variable {K V : Type} [DecidableEq K]

/-- C6. In every reachable state, `contains(k)` is true exactly when `get(k)`
succeeds and false exactly when `get(k)` fails with `KeyNotFound`; a successful
`get(k)` returns the value of the one node whose key is `k`; and neither call
changes the table, whatever its outcome.  (`contains` returns a boolean and has
no failing path.) -/
theorem C6_get_contains (hash : K → Nat) (s : ChainHash K V) (hr : Reachable hash s) (k : K) :
    (contains hash s k = true ↔ ∃ v, get hash s k = Except.ok v)
      ∧ (contains hash s k = false ↔ get hash s k = Except.error ChainError.keyNotFound)
      ∧ (∀ v, get hash s k = Except.ok v →
          ∃ n, (nodes s).filter (fun m => decide (m.key = k)) = [n] ∧ n.value = v)
      ∧ (step hash s (Call.get k)).2 = s
      ∧ (step hash s (Call.contains k)).2 = s := by
  have hs := reachable_inv hash s hr
  have h1 := contains_iff_get hash s k
  refine ⟨h1, ?_, ?_, rfl, rfl⟩
  · constructor
    · intro hc
      cases hg : get hash s k with
      | ok v => rw [h1.2 ⟨v, hg⟩] at hc; cases hc
      | error e => rw [((get_error_iff hash s hs k e).1 hg).1]
    · intro hg
      cases hc : contains hash s k with
      | false => rfl
      | true =>
        obtain ⟨v, hv⟩ := h1.1 hc
        rw [hv] at hg
        cases hg
  · intro v hv
    obtain ⟨n, hn, hk, hval⟩ := (get_ok_iff hash s hs k v).1 hv
    subst hk
    exact ⟨n, filter_key_eq_singleton _ hs.nodup n hn, hval⟩

/-- Witness of C6: the example table, read at the key 2. -/
theorem C6_get_contains_witness :
    Reachable hashTimes4 exTable
      ∧ ((contains hashTimes4 exTable 2 = true ↔ ∃ v, get hashTimes4 exTable 2 = Except.ok v)
        ∧ (contains hashTimes4 exTable 2 = false
            ↔ get hashTimes4 exTable 2 = Except.error ChainError.keyNotFound)
        ∧ (∀ v, get hashTimes4 exTable 2 = Except.ok v →
            ∃ n, (nodes exTable).filter (fun m => decide (m.key = 2)) = [n] ∧ n.value = v)
        ∧ (step hashTimes4 exTable (Call.get 2)).2 = exTable
        ∧ (step hashTimes4 exTable (Call.contains 2)).2 = exTable) :=
  ⟨reachable_setAll hashTimes4 _ (Reachable.construct 4 (by decide)) _,
   C6_get_contains hashTimes4 exTable
     (reachable_setAll hashTimes4 _ (Reachable.construct 4 (by decide)) _) 2⟩

/-- C7. In every state reachable by `set` and `remove` from a constructed table
of positive capacity, `bucket_size(i)` is the number of nodes of chain `i` for
every index `i` in `[0, bucket_count())`, and `size()` is the sum of these
numbers over all buckets; rehashing inside `set` is one of the steps covered. -/
theorem C7_counters (hash : K → Nat) (s : ChainHash K V) (hr : Reachable hash s) :
    (∀ i : Int, 0 ≤ i → i < bucket_count s →
        bucket_size s i = Except.ok ((s.array.getD i.toNat []).length : Int))
      ∧ size s
          = ((List.range s.capacity).map
              (fun i => ((s.array.getD i []).length : Int))).sum := by
  have hs := reachable_inv hash s hr
  constructor
  · intro i h0 hlt
    unfold bucket_count at hlt
    have hcond : ¬ (i < 0 ∨ i ≥ (s.capacity : Int)) := by omega
    unfold bucket_size
    rw [if_neg hcond, sizes_getD s hs.toShape i.toNat (by rw [hs.arr_len]; omega)]
  · unfold size
    rw [hs.nsize_eq, ← hs.arr_len,
      map_range_getD s.array [] (fun chain => (chain.length : Int))]
    unfold nodes
    rw [List.length_flatten]
    induction s.array with
    | nil => simp
    | cons a l ih => simp [ih]

/-- Witness of C7: the example table after a fourth key made it rehash. -/
theorem C7_counters_witness :
    Reachable hashTimes4 (set hashTimes4 exTable 4 40)
      ∧ ((∀ i : Int, 0 ≤ i → i < bucket_count (set hashTimes4 exTable 4 40) →
            bucket_size (set hashTimes4 exTable 4 40) i
              = Except.ok (((set hashTimes4 exTable 4 40).array.getD i.toNat []).length : Int))
        ∧ size (set hashTimes4 exTable 4 40)
            = ((List.range (set hashTimes4 exTable 4 40).capacity).map
                (fun i => (((set hashTimes4 exTable 4 40).array.getD i []).length : Int))).sum) :=
  ⟨Reachable.set 4 40 (reachable_setAll hashTimes4 _ (Reachable.construct 4 (by decide)) _),
   C7_counters hashTimes4 (set hashTimes4 exTable 4 40)
     (Reachable.set 4 40 (reachable_setAll hashTimes4 _ (Reachable.construct 4 (by decide)) _))⟩

/-- The capacity of the table that `run` computes from a freshly constructed
one: positive, `c0 * 2^k`, left alone by `get`, `contains` and `remove`, kept or
doubled by `set`, and never decreasing. -/
theorem run_bucket_count_spec (hash : K → Nat) (c0 : Nat) (h0 : 0 < c0) (calls : List (Call K V)) :
    0 < bucket_count (run hash (construct c0) calls)
      ∧ (∃ k : Nat, bucket_count (run hash (construct c0) calls) = (c0 : Int) * 2 ^ k)
      ∧ (∀ key, bucket_count (step hash (run hash (construct c0) calls) (Call.get key)).2
          = bucket_count (run hash (construct c0) calls))
      ∧ (∀ key, bucket_count (step hash (run hash (construct c0) calls) (Call.contains key)).2
          = bucket_count (run hash (construct c0) calls))
      ∧ (∀ key, bucket_count (step hash (run hash (construct c0) calls) (Call.remove key)).2
          = bucket_count (run hash (construct c0) calls))
      ∧ (∀ key value,
          bucket_count (step hash (run hash (construct c0) calls) (Call.set key value)).2
            = bucket_count (run hash (construct c0) calls)
          ∨ bucket_count (step hash (run hash (construct c0) calls) (Call.set key value)).2
            = 2 * bucket_count (run hash (construct c0) calls))
      ∧ (∀ more : List (Call K V),
          bucket_count (run hash (construct c0) calls)
            ≤ bucket_count (run hash (construct c0) (calls ++ more))) := by
  have hinv := run_inv hash _ (construct_inv (V := V) hash c0 h0) calls
  refine ⟨?_, ?_, fun _ => rfl, fun _ => rfl, ?_, ?_, ?_⟩
  · unfold bucket_count
    exact_mod_cast hinv.cap_pos
  · obtain ⟨k, hk⟩ := capacity_run hash _ (construct_inv (V := V) hash c0 h0) calls
    refine ⟨k, ?_⟩
    unfold bucket_count
    rw [hk]
    push_cast
    rfl
  · intro key
    unfold bucket_count
    rw [show (step hash (run hash (construct c0) calls) (Call.remove key)).2
      = (remove hash (run hash (construct c0) calls) key).2 from rfl, capacity_remove]
  · intro key value
    unfold bucket_count
    rcases capacity_set hash _ hinv.toShape key value with h | h
    · left
      rw [show (step hash (run hash (construct c0) calls) (Call.set key value)).2
        = set hash (run hash (construct c0) calls) key value from rfl, h]
    · right
      rw [show (step hash (run hash (construct c0) calls) (Call.set key value)).2
        = set hash (run hash (construct c0) calls) key value from rfl, h]
      push_cast
      ring
  · intro more
    obtain ⟨k, hk⟩ := capacity_run hash _ hinv more
    unfold bucket_count
    rw [run_append, hk]
    have : 1 ≤ 2 ^ k := Nat.one_le_two_pow
    exact_mod_cast Nat.le_mul_of_pos_right _ this

end ChainHash

namespace ChainHash

variable {K V : Type} [DecidableEq K]

end ChainHash

namespace ChainHash

variable {K V : Type} [DecidableEq K]

/-- C9, evaluated where the code leaves the stated rule.  Take a table
constructed with capacity `2^24 = 16777216` and the keys `0 .. 13421771` set,
under the identity hash; the state is reachable and the key `13421772` is not
in it.  Setting that key leaves every bucket with at most one node and brings
the fill factor to `13421773 / 16777216`, which is above `0.8`; the rule of the
claim demands a doubling, but this fraction is exactly the `float` nearest to
`0.8`, the comparison in `set` is strict, and the capacity stays `16777216`. -/
theorem C9_growth_rule_at_float_threshold :
    Reachable id (spread 16777216 13421772)
      ∧ contains id (spread 16777216 13421772) 13421772 = false
      ∧ fillFactor (linkNew (spread 16777216 13421772) 13421772 0 (id 13421772)
          (id 13421772 % (spread 16777216 13421772).capacity)) > 4 / 5
      ∧ (set id (spread 16777216 13421772) 13421772 0).capacity = 16777216
      ∧ (set id (spread 16777216 13421772) 13421772 0).capacity
          ≠ 2 * (spread 16777216 13421772).capacity := by
  have hset := set_spread 16777216 13421772 (by norm_num) (by norm_num)
  have hlink := linkNew_spread 16777216 13421772 (by norm_num)
  have hmod : id 13421772 % (spread 16777216 13421772).capacity = 13421772 :=
    Nat.mod_eq_of_lt (show 13421772 < 16777216 by norm_num)
  refine ⟨reachable_spread 16777216 13421772 (by norm_num) (by norm_num) (by norm_num),
    contains_spread 16777216 13421772 (by norm_num), ?_, ?_, ?_⟩
  · rw [hmod]
    show fillFactor (linkNew (spread 16777216 13421772) 13421772 0 13421772 13421772) > 4 / 5
    rw [hlink]
    unfold fillFactor spread
    norm_num
  · rw [hset]
    rfl
  · rw [hset]
    show (16777216 : Nat) ≠ 2 * 16777216
    norm_num

/-- C10 as stated fails: with the hash codes 0, 4 and 8 for `"a"`, `"b"` and
`"c"` all three keys fall into bucket 0 of a table of capacity 4, and after the
third insertion `bucket_count()` is 4, not 8. -/
theorem C10_three_collisions_counterexample :
    hashABC "a" % 4 = 0 ∧ hashABC "b" % 4 = 0 ∧ hashABC "c" % 4 = 0
      ∧ bucket_count (setAll hashABC (construct 4) [("a", (1 : Int)), ("b", 2), ("c", 3)]) = 4
      ∧ ¬ (bucket_count (setAll hashABC (construct 4) [("a", (1 : Int)), ("b", 2), ("c", 3)])
            = 8) := by
  decide

/-- C10, amended.  On a table constructed with capacity 4, after `set("a",1)`,
`set("b",2)`, `set("c",3)` with all three hash codes in bucket 0, the bucket
holds three nodes, which is not more than `maxColision`: `bucket_count()` is
still 4, and `get` returns 1, 2 and 3 for `"a"`, `"b"` and `"c"`. -/
theorem C10_three_collisions (hash : String → Nat) (ha : hash "a" % 4 = 0)
    (hb : hash "b" % 4 = 0) (hc : hash "c" % 4 = 0) :
    bucket_count (setAll hash (construct 4) [("a", (1 : Int)), ("b", 2), ("c", 3)]) = 4
      ∧ get hash (setAll hash (construct 4) [("a", (1 : Int)), ("b", 2), ("c", 3)]) "a"
          = Except.ok 1
      ∧ get hash (setAll hash (construct 4) [("a", (1 : Int)), ("b", 2), ("c", 3)]) "b"
          = Except.ok 2
      ∧ get hash (setAll hash (construct 4) [("a", (1 : Int)), ("b", 2), ("c", 3)]) "c"
          = Except.ok 3 := by
  have e1 : set hash (construct 4) "a" (1 : Int)
      = ⟨[[⟨"a", 1, hash "a"⟩], [], [], []], 1, 4, [1, 0, 0, 0], 1⟩ := by
    rw [set_eq_linkNew hash _ "a" 1 (by simp [construct, ha, setLoop])
      (by rw [mustGrow_iff]; simp [construct, linkNew, ha, maxColision])]
    simp [construct, linkNew, ha]
  have e2 : set hash ⟨[[⟨"a", 1, hash "a"⟩], [], [], []], 1, 4, [1, 0, 0, 0], 1⟩ "b" (2 : Int)
      = ⟨[[⟨"b", 2, hash "b"⟩, ⟨"a", 1, hash "a"⟩], [], [], []], 2, 4, [2, 0, 0, 0], 1⟩ := by
    rw [set_eq_linkNew hash _ "b" 2 (by simp [hb, setLoop])
      (by rw [mustGrow_iff]; simp [linkNew, hb, maxColision])]
    simp [linkNew, hb]
  have e3 : set hash ⟨[[⟨"b", 2, hash "b"⟩, ⟨"a", 1, hash "a"⟩], [], [], []], 2, 4,
        [2, 0, 0, 0], 1⟩ "c" (3 : Int)
      = ⟨[[⟨"c", 3, hash "c"⟩, ⟨"b", 2, hash "b"⟩, ⟨"a", 1, hash "a"⟩], [], [], []], 3, 4,
        [3, 0, 0, 0], 1⟩ := by
    rw [set_eq_linkNew hash _ "c" 3 (by simp [hc, setLoop])
      (by rw [mustGrow_iff]; simp [linkNew, hc, maxColision])]
    simp [linkNew, hc]
  simp only [setAll, List.foldl_cons, List.foldl_nil, e1, e2, e3]
  refine ⟨rfl, ?_, ?_, ?_⟩
  · simp [get, ha, getLoop]
  · simp [get, hb, getLoop]
  · simp [get, hc, getLoop]

/-- Witness of the amended C10, with the hash codes 0, 4 and 8. -/
theorem C10_three_collisions_witness :
    hashABC "a" % 4 = 0 ∧ hashABC "b" % 4 = 0 ∧ hashABC "c" % 4 = 0
      ∧ (bucket_count (setAll hashABC (construct 4) [("a", (1 : Int)), ("b", 2), ("c", 3)]) = 4
        ∧ get hashABC (setAll hashABC (construct 4) [("a", (1 : Int)), ("b", 2), ("c", 3)]) "a"
            = Except.ok 1
        ∧ get hashABC (setAll hashABC (construct 4) [("a", (1 : Int)), ("b", 2), ("c", 3)]) "b"
            = Except.ok 2
        ∧ get hashABC (setAll hashABC (construct 4) [("a", (1 : Int)), ("b", 2), ("c", 3)]) "c"
            = Except.ok 3) :=
  ⟨by decide, by decide, by decide,
   C10_three_collisions hashABC (by decide) (by decide) (by decide)⟩

end ChainHash

namespace ChainHash

variable {K V : Type} [DecidableEq K]

/-- C11. In every reachable state with capacity `c` and for every integer
`index`, each of `bucket_size(index)`, `begin(index)` and `end(index)` fails,
with `IndexOutOfRange`, exactly when `index < 0` or `index >= c`, so also for
`index = c`; for `0 <= index < c` the three calls succeed and `bucket_size`
returns the length of the chain of that bucket; none of the calls changes the
table. -/
theorem C11_indexed_calls (hash : K → Nat) (s : ChainHash K V) (hr : Reachable hash s)
    (index : Int) :
    ((∃ e, bucket_size s index = Except.error e) ↔ (index < 0 ∨ index ≥ s.capacity))
      ∧ ((∃ e, begin s index = Except.error e) ↔ (index < 0 ∨ index ≥ s.capacity))
      ∧ ((∃ e, end_ s index = Except.error e) ↔ (index < 0 ∨ index ≥ s.capacity))
      ∧ (index < 0 ∨ index ≥ s.capacity →
          bucket_size s index = Except.error ChainError.indexOutOfRange
            ∧ begin s index = Except.error ChainError.indexOutOfRange
            ∧ end_ s index = Except.error ChainError.indexOutOfRange)
      ∧ (0 ≤ index → index < s.capacity →
          bucket_size s index = Except.ok ((s.array.getD index.toNat []).length : Int)
            ∧ begin s index = Except.ok (ChainHashListIterator.mk (s.array.getD index.toNat []))
            ∧ end_ s index = Except.ok (ChainHashListIterator.mk []))
      ∧ bucket_size s (s.capacity : Int) = Except.error ChainError.indexOutOfRange
      ∧ begin s (s.capacity : Int) = Except.error ChainError.indexOutOfRange
      ∧ end_ s (s.capacity : Int) = Except.error ChainError.indexOutOfRange
      ∧ (probe s (Probe.bucket_size index)).2 = s
      ∧ (probe s (Probe.begin index)).2 = s
      ∧ (probe s (Probe.end_ index)).2 = s := by
  have hs := reachable_inv hash s hr
  have hcap : ¬ (s.capacity : Int) < 0 := by omega
  refine ⟨?_, ?_, ?_, ?_, ?_, ?_, ?_, ?_, rfl, rfl, rfl⟩
  · unfold bucket_size
    by_cases hc : index < 0 ∨ index ≥ (s.capacity : Int)
    · simp [hc]
    · simp [hc]
  · unfold begin
    by_cases hc : index < 0 ∨ index ≥ (s.capacity : Int)
    · simp [hc]
    · simp [hc]
  · unfold end_
    by_cases hc : index < 0 ∨ index ≥ (s.capacity : Int)
    · simp [hc]
    · simp [hc]
  · intro hc
    unfold bucket_size begin end_
    simp only [if_pos hc, and_self]
  · intro h0 h1
    have hc : ¬ (index < 0 ∨ index ≥ (s.capacity : Int)) := by omega
    refine ⟨bucket_size_of_valid s hs.toShape index h0 h1, ?_, ?_⟩
    · unfold begin; rw [if_neg hc]
    · unfold end_; rw [if_neg hc]
  · unfold bucket_size; simp
  · unfold begin; simp
  · unfold end_; simp

/-- Witness of C11: the example table of capacity 4, probed one past the last valid index. -/
theorem C11_indexed_calls_witness :
    Reachable hashTimes4 exTable
      ∧ bucket_size exTable ((exTable.capacity : Nat) : Int)
          = Except.error ChainError.indexOutOfRange :=
  ⟨reachable_setAll hashTimes4 _ (Reachable.construct 4 (by decide)) _,
   (C11_indexed_calls hashTimes4 exTable
     (reachable_setAll hashTimes4 _ (Reachable.construct 4 (by decide)) _) 4).2.2.2.2.2.1⟩

end ChainHash

namespace ChainHash

variable {K V : Type} [DecidableEq K]

/-- C12. In every reachable state and for every valid bucket index `i`: the
loop from `begin(i)`, advancing with `++` until the iterator equals `end(i)`,
ends after exactly `bucket_size(i)` steps (that many rounds suffice and fewer
do not); the (key, value) pairs it visits are, as a set, the pairs
`(k, get(k))` of the keys `k` present in the table with
`hash(k) % bucket_count() == i`; and dereferencing an iterator equal to
`end(i)`, such as `begin(i)` of an empty bucket, fails with
`IteratorOutOfRange`. -/
theorem C12_bucket_iteration [DecidableEq V] (hash : K → Nat) (s : ChainHash K V)
    (hr : Reachable hash s) (i : Nat) (hi : i < s.capacity) :
    ∃ first last visited,
      begin s (i : Int) = Except.ok first
        ∧ end_ s (i : Int) = Except.ok last
        ∧ bucket_size s (i : Int) = Except.ok (visited.length : Int)
        ∧ (∀ fuel, visited.length ≤ fuel →
            ChainHashListIterator.collect fuel first last = some visited)
        ∧ (∀ fuel, fuel < visited.length →
            ChainHashListIterator.collect fuel first last = none)
        ∧ (∀ k v, (k, v) ∈ visited.map (fun n => (n.key, n.value))
            ↔ (get hash s k = Except.ok v ∧ hash k % s.capacity = i))
        ∧ (∀ it, ChainHashListIterator.eq it last = true →
            ChainHashListIterator.deref it = Except.error ChainError.iteratorOutOfRange)
        ∧ (visited = [] →
            ChainHashListIterator.deref first = Except.error ChainError.iteratorOutOfRange) := by
  have hs := reachable_inv hash s hr
  have hc : ¬ ((i : Int) < 0 ∨ (i : Int) ≥ (s.capacity : Int)) := by omega
  refine ⟨ChainHashListIterator.mk (s.array.getD i []), ChainHashListIterator.mk [],
    s.array.getD i [], ?_, ?_, ?_, ?_, ?_, ?_, ?_, ?_⟩
  · unfold begin; rw [if_neg hc]; simp
  · unfold end_; rw [if_neg hc]
  · have := bucket_size_of_valid s hs.toShape (i : Int) (by omega) (by omega)
    simpa using this
  · intro fuel hf
    exact collect_chain _ fuel hf
  · intro fuel hf
    exact collect_chain_short _ fuel hf
  · intro k v
    rw [← mem_bucket_iff_get hash s hs i hi k v]
    simp only [List.mem_map, Prod.mk.injEq]
  · intro it hit
    have : it.current = [] := by simpa [ChainHashListIterator.eq] using hit
    unfold ChainHashListIterator.deref
    rw [this]
  · intro hnil
    unfold ChainHashListIterator.deref
    simp only [hnil]

/-- Witness of C12: bucket 7 of the crowded example table, which holds its four keys. -/
theorem C12_bucket_iteration_witness :
    Reachable hashSeven exCrowded ∧ 7 < exCrowded.capacity
      ∧ ∃ first last visited,
        begin exCrowded ((7 : Nat) : Int) = Except.ok first
          ∧ end_ exCrowded ((7 : Nat) : Int) = Except.ok last
          ∧ bucket_size exCrowded ((7 : Nat) : Int) = Except.ok (visited.length : Int)
          ∧ (∀ fuel, visited.length ≤ fuel →
              ChainHashListIterator.collect fuel first last = some visited)
          ∧ (∀ fuel, fuel < visited.length →
              ChainHashListIterator.collect fuel first last = none)
          ∧ (∀ k v, (k, v) ∈ visited.map (fun n => (n.key, n.value))
              ↔ (get hashSeven exCrowded k = Except.ok v ∧ hashSeven k % exCrowded.capacity = 7))
          ∧ (∀ it, ChainHashListIterator.eq it last = true →
              ChainHashListIterator.deref it = Except.error ChainError.iteratorOutOfRange)
          ∧ (visited = [] →
              ChainHashListIterator.deref first
                = Except.error ChainError.iteratorOutOfRange) :=
  ⟨reachable_setAll hashSeven _ (Reachable.construct 4 (by decide)) _, by decide,
   C12_bucket_iteration hashSeven exCrowded
     (reachable_setAll hashSeven _ (Reachable.construct 4 (by decide)) _) 7 (by decide)⟩

/-- C13. In every reachable state each key is the key of at most one node of
the table, all chains taken together; and this is again so after a `set`
(update or insertion, with or without rehashing), after a `remove` and after
`rehashing`. -/
theorem C13_no_duplicate_keys (hash : K → Nat) (s : ChainHash K V) (hr : Reachable hash s) :
    (∀ k, ((nodes s).map (fun n => n.key)).count k ≤ 1)
      ∧ (∀ key value k, ((nodes (set hash s key value)).map (fun n => n.key)).count k ≤ 1)
      ∧ (∀ key k, ((nodes (remove hash s key).2).map (fun n => n.key)).count k ≤ 1)
      ∧ (∀ k, ((nodes (rehashing s)).map (fun n => n.key)).count k ≤ 1) := by
  have hs := reachable_inv hash s hr
  refine ⟨?_, ?_, ?_, ?_⟩
  · exact List.nodup_iff_count_le_one.1 hs.nodup
  · intro key value
    exact List.nodup_iff_count_le_one.1 (set_inv hash s hs key value).nodup
  · intro key
    exact List.nodup_iff_count_le_one.1 (remove_inv hash s hs key).nodup
  · exact List.nodup_iff_count_le_one.1 (rehashing_inv hash s hs).nodup

/-- Witness of C13: the example table. -/
theorem C13_no_duplicate_keys_witness :
    Reachable hashTimes4 exTable
      ∧ ((∀ k, ((nodes exTable).map (fun n => n.key)).count k ≤ 1)
        ∧ (∀ key value k,
            ((nodes (set hashTimes4 exTable key value)).map (fun n => n.key)).count k ≤ 1)
        ∧ (∀ key k,
            ((nodes (remove hashTimes4 exTable key).2).map (fun n => n.key)).count k ≤ 1)
        ∧ (∀ k, ((nodes (rehashing exTable)).map (fun n => n.key)).count k ≤ 1)) :=
  ⟨reachable_setAll hashTimes4 _ (Reachable.construct 4 (by decide)) _,
   C13_no_duplicate_keys hashTimes4 exTable
     (reachable_setAll hashTimes4 _ (Reachable.construct 4 (by decide)) _)⟩

/-- C14. In every reachable state the array has `capacity` slots and every node
in the chain of slot `i` has `hashcode % capacity == i`; a state produced by a
`set` that rehashed is reachable, so there the property is about the new
capacity. -/
theorem C14_slot_of_hashcode (hash : K → Nat) (s : ChainHash K V) (hr : Reachable hash s) :
    s.array.length = s.capacity
      ∧ ∀ i, i < s.capacity → ∀ n ∈ s.array.getD i [], n.hashcode % s.capacity = i := by
  have hs := reachable_inv hash s hr
  refine ⟨hs.arr_len, ?_⟩
  intro i hi n hn
  have hlt : i < s.array.length := by rw [hs.arr_len]; exact hi
  rw [List.getD_eq_getElem _ _ hlt] at hn
  exact hs.slot_ok i hlt n hn

/-- Witness of C14: the example table after a fourth key made it rehash to capacity 8. -/
theorem C14_slot_of_hashcode_witness :
    Reachable hashTimes4 (set hashTimes4 exTable 4 40)
      ∧ ((set hashTimes4 exTable 4 40).array.length = (set hashTimes4 exTable 4 40).capacity
        ∧ ∀ i, i < (set hashTimes4 exTable 4 40).capacity →
            ∀ n ∈ (set hashTimes4 exTable 4 40).array.getD i [],
              n.hashcode % (set hashTimes4 exTable 4 40).capacity = i) :=
  ⟨Reachable.set 4 40 (reachable_setAll hashTimes4 _ (Reachable.construct 4 (by decide)) _),
   C14_slot_of_hashcode hashTimes4 (set hashTimes4 exTable 4 40)
     (Reachable.set 4 40 (reachable_setAll hashTimes4 _ (Reachable.construct 4 (by decide)) _))⟩

/-- C15. In every reachable state `usedBuckets` is the number of indices `i` in
`[0, capacity)` whose chain is not empty, which is also the number of indices
with `bucket_sizes[i] > 0`. -/
theorem C15_used_buckets (hash : K → Nat) (s : ChainHash K V) (hr : Reachable hash s) :
    s.usedBuckets
        = (((List.range s.capacity).filter
            (fun i => !(s.array.getD i []).isEmpty)).length : Int)
      ∧ s.usedBuckets
        = (((List.range s.capacity).filter
            (fun i => decide (s.bucket_sizes.getD i 0 > 0))).length : Int) := by
  have hs := reachable_inv hash s hr
  have h1 : s.usedBuckets
      = (((List.range s.capacity).filter
          (fun i => !(s.array.getD i []).isEmpty)).length : Int) := by
    rw [hs.used_eq, countP_eq_range_filter s.array [] (fun chain => !chain.isEmpty),
      hs.arr_len]
  refine ⟨h1, ?_⟩
  rw [h1]
  congr 2
  apply List.filter_congr
  intro i hi
  have hlt : i < s.array.length := by
    rw [hs.arr_len]; exact List.mem_range.1 hi
  rw [sizes_getD s hs.toShape i hlt]
  cases s.array.getD i [] with
  | nil => simp
  | cons a l => simp

/-- Witness of C15: the example table after a fourth key made it rehash into two buckets. -/
theorem C15_used_buckets_witness :
    Reachable hashTimes4 (set hashTimes4 exTable 4 40)
      ∧ ((set hashTimes4 exTable 4 40).usedBuckets
          = (((List.range (set hashTimes4 exTable 4 40).capacity).filter
              (fun i => !((set hashTimes4 exTable 4 40).array.getD i []).isEmpty)).length : Int)
        ∧ (set hashTimes4 exTable 4 40).usedBuckets
          = (((List.range (set hashTimes4 exTable 4 40).capacity).filter
              (fun i => decide ((set hashTimes4 exTable 4 40).bucket_sizes.getD i 0 > 0))).length
                : Int)) :=
  ⟨Reachable.set 4 40 (reachable_setAll hashTimes4 _ (Reachable.construct 4 (by decide)) _),
   C15_used_buckets hashTimes4 (set hashTimes4 exTable 4 40)
     (Reachable.set 4 40 (reachable_setAll hashTimes4 _ (Reachable.construct 4 (by decide)) _))⟩

end ChainHash

namespace ChainHash

variable {K V : Type} [DecidableEq K]

/-- C17. In every reachable state, `set(k, v)` on a present key `k` yields the
same table with the value of the node of key `k` replaced by `v` and nothing
else: `size()`, `bucket_count()`, `usedBuckets` and every bucket counter are
unchanged, every node keeps its position, key and hash code, and the capacity
stays whatever the fill factor and the length of the chain of `k` are. -/
theorem C17_update_in_place (hash : K → Nat) (s : ChainHash K V) (hr : Reachable hash s)
    (k : K) (v : V) (hk : contains hash s k = true) :
    (set hash s k v).array
        = s.array.map (fun chain =>
            chain.map (fun n => if n.key = k then { n with value := v } else n))
      ∧ size (set hash s k v) = size s
      ∧ bucket_count (set hash s k v) = bucket_count s
      ∧ (set hash s k v).usedBuckets = s.usedBuckets
      ∧ (set hash s k v).bucket_sizes = s.bucket_sizes
      ∧ (set hash s k v).array.map (fun chain => chain.map (fun n => (n.key, n.hashcode)))
          = s.array.map (fun chain => chain.map (fun n => (n.key, n.hashcode))) := by
  have hs := reachable_inv hash s hr
  rw [set_present_eq hash s hs k v hk]
  refine ⟨rfl, rfl, rfl, rfl, rfl, ?_⟩
  rw [List.map_map]
  apply List.map_congr_left
  intro chain _
  simp only [Function.comp, List.map_map]
  apply List.map_congr_left
  intro n _
  simp only [Function.comp]
  split <;> rfl

/-- Witness of C17: the key 2 of the crowded example table, in a chain of four nodes. -/
theorem C17_update_in_place_witness :
    Reachable hashSeven exCrowded ∧ contains hashSeven exCrowded 2 = true
      ∧ ((set hashSeven exCrowded 2 99).array
            = exCrowded.array.map (fun chain =>
                chain.map (fun n => if n.key = 2 then { n with value := 99 } else n))
        ∧ size (set hashSeven exCrowded 2 99) = size exCrowded
        ∧ bucket_count (set hashSeven exCrowded 2 99) = bucket_count exCrowded
        ∧ (set hashSeven exCrowded 2 99).usedBuckets = exCrowded.usedBuckets
        ∧ (set hashSeven exCrowded 2 99).bucket_sizes = exCrowded.bucket_sizes
        ∧ (set hashSeven exCrowded 2 99).array.map
              (fun chain => chain.map (fun n => (n.key, n.hashcode)))
            = exCrowded.array.map (fun chain => chain.map (fun n => (n.key, n.hashcode)))) :=
  ⟨reachable_setAll hashSeven _ (Reachable.construct 4 (by decide)) _, by decide,
   C17_update_in_place hashSeven exCrowded
     (reachable_setAll hashSeven _ (Reachable.construct 4 (by decide)) _) 2 99 (by decide)⟩

/-- C18 as stated fails: the key 4 is not in the example table, setting it
rehashes the table to capacity 8, and afterwards the chain of bucket
`hash(4) % 8 = 0` starts with the node of key 2; the node of key 4 comes second. -/
theorem C18_new_node_position_counterexample :
    Reachable hashTimes4 exTable ∧ contains hashTimes4 exTable 4 = false
      ∧ begin (set hashTimes4 exTable 4 40)
          ((hashTimes4 4 % (set hashTimes4 exTable 4 40).capacity : Nat) : Int)
          = Except.ok (ChainHashListIterator.mk
              [ChainHashNode.mk 2 20 8, ChainHashNode.mk 4 40 16])
      ∧ ChainHashListIterator.deref
          (ChainHashListIterator.mk [ChainHashNode.mk 2 (20 : Int) 8, ChainHashNode.mk 4 40 16])
          = Except.ok (ChainHashNode.mk 2 20 8)
      ∧ ChainHashNode.mk 2 (20 : Int) 8 ≠ ChainHashNode.mk 4 40 (hashTimes4 4) :=
  ⟨reachable_setAll hashTimes4 _ (Reachable.construct 4 (by decide)) _, by decide, rfl, rfl,
   by decide⟩

/-- C18, amended.  In every reachable state and for every key `k` that is not
present: after `set(k, v)` the node holding `(k, v)` is in the chain of bucket
`hash(k) % bucket_count()`, and when the `set` did not rehash (the capacity is
what it was) that node is the head of the chain, the record that
`begin(hash(k) % bucket_count())` points to. -/
theorem C18_new_node_position (hash : K → Nat) (s : ChainHash K V) (hr : Reachable hash s)
    (k : K) (v : V) (hk : contains hash s k = false) :
    ChainHashNode.mk k v (hash k)
        ∈ (set hash s k v).array.getD (hash k % (set hash s k v).capacity) []
      ∧ ((set hash s k v).capacity = s.capacity →
          ∃ it, begin (set hash s k v) ((hash k % (set hash s k v).capacity : Nat) : Int)
              = Except.ok it
            ∧ ChainHashListIterator.deref it = Except.ok (ChainHashNode.mk k v (hash k))) := by
  have hs := reachable_inv hash s hr
  have hinv := set_inv hash s hs k v
  refine ⟨set_new_mem_bucket hash s hs k v, ?_⟩
  intro hcap
  have hhead := set_new_head hash s hs k v hk hcap
  have hlt : hash k % (set hash s k v).capacity < (set hash s k v).capacity :=
    Nat.mod_lt _ hinv.cap_pos
  have hc : ¬ (((hash k % (set hash s k v).capacity : Nat) : Int) < 0
      ∨ ((hash k % (set hash s k v).capacity : Nat) : Int)
          ≥ ((set hash s k v).capacity : Int)) := by omega
  refine ⟨ChainHashListIterator.mk
    ((set hash s k v).array.getD (hash k % (set hash s k v).capacity) []), ?_, ?_⟩
  · unfold begin
    rw [if_neg hc, Int.toNat_ofNat]
  · unfold ChainHashListIterator.deref
    simp only [hhead]

/-- Witness of the amended C18: the key 2 set on a table that holds the key 1 only; no rehash. -/
theorem C18_new_node_position_witness :
    Reachable hashTimes4 (set hashTimes4 (construct 4) 1 (10 : Int))
      ∧ contains hashTimes4 (set hashTimes4 (construct 4) 1 (10 : Int)) 2 = false
      ∧ (ChainHashNode.mk 2 20 (hashTimes4 2)
            ∈ (set hashTimes4 (set hashTimes4 (construct 4) 1 (10 : Int)) 2 20).array.getD
                (hashTimes4 2
                  % (set hashTimes4 (set hashTimes4 (construct 4) 1 (10 : Int)) 2 20).capacity) []
        ∧ ((set hashTimes4 (set hashTimes4 (construct 4) 1 (10 : Int)) 2 20).capacity
              = (set hashTimes4 (construct 4) 1 (10 : Int)).capacity →
            ∃ it, begin (set hashTimes4 (set hashTimes4 (construct 4) 1 (10 : Int)) 2 20)
                ((hashTimes4 2
                  % (set hashTimes4 (set hashTimes4 (construct 4) 1 (10 : Int)) 2 20).capacity
                    : Nat) : Int) = Except.ok it
              ∧ ChainHashListIterator.deref it
                  = Except.ok (ChainHashNode.mk 2 20 (hashTimes4 2)))) :=
  ⟨Reachable.set 1 10 (Reachable.construct 4 (by decide)), by decide,
   C18_new_node_position hashTimes4 (set hashTimes4 (construct 4) 1 10)
     (Reachable.set 1 10 (Reachable.construct 4 (by decide))) 2 20 (by decide)⟩

/-- The table that `setAll` computes from at least four distinct keys with one
hash code `h`: the bucket of `h` holds all of them, the last call doubled the
capacity, a further `set` keeps or doubles the capacity of the computed table,
and doubles it for an absent key with hash code `h`. -/
theorem setAll_same_hash_spec (hash : K → Nat) (c0 : Nat) (h0 : 0 < c0) (kvs : List (K × V))
    (hnd : (kvs.map Prod.fst).Nodup) (h4 : 4 ≤ kvs.length) (h : Nat)
    (hsame : ∀ p ∈ kvs, hash p.1 = h) :
    bucket_size (setAll hash (construct c0) kvs)
        ((h % (setAll hash (construct c0) kvs).capacity : Nat) : Int)
        = Except.ok (kvs.length : Int)
      ∧ (kvs.length : Int) > maxColision
      ∧ (setAll hash (construct c0) kvs).capacity
          = 2 * (setAll hash (construct c0) kvs.dropLast).capacity
      ∧ (∀ key value,
          (set hash (setAll hash (construct c0) kvs) key value).capacity
              = (setAll hash (construct c0) kvs).capacity
            ∨ (set hash (setAll hash (construct c0) kvs) key value).capacity
              = 2 * (setAll hash (construct c0) kvs).capacity)
      ∧ (∀ key value, key ∉ kvs.map Prod.fst → hash key = h →
          (set hash (setAll hash (construct c0) kvs) key value).capacity
            = 2 * (setAll hash (construct c0) kvs).capacity) := by
  have hinv := setAll_inv hash _ (construct_inv (V := V) hash c0 h0) kvs
  have hcont := contains_setAll_construct (V := V) hash c0 h0 kvs
  have hks : ∀ k ∈ kvs.map Prod.fst,
      contains hash (setAll hash (construct c0) kvs) k = true ∧ hash k = h := by
    intro k hk
    refine ⟨(hcont k).2 hk, ?_⟩
    obtain ⟨p, hp, rfl⟩ := List.mem_map.1 hk
    exact hsame p hp
  have hlow := bucket_length_of_same_hash hash _ hinv h (kvs.map Prod.fst) hnd hks
  have hup : ((setAll hash (construct c0) kvs).array.getD
      (h % (setAll hash (construct c0) kvs).capacity) []).length ≤ (kvs.map Prod.fst).length := by
    refine le_trans (bucket_sublist_nodes _ _).length_le ?_
    have hsub : (nodes (setAll hash (construct c0) kvs)).map (fun n => n.key)
        ⊆ kvs.map Prod.fst := by
      intro k hk
      obtain ⟨n, hn, rfl⟩ := List.mem_map.1 hk
      exact (hcont n.key).1 ((contains_iff hash _ hinv n.key).2 ⟨n, hn, rfl⟩)
    have := (List.subperm_of_subset hinv.nodup hsub).length_le
    simpa using this
  have hlen : (kvs.map Prod.fst).length = kvs.length := by simp
  refine ⟨?_, ?_, ?_, ?_, ?_⟩
  · rw [bucket_size_of_valid _ hinv.toShape _ (by omega)
      (by exact_mod_cast Nat.mod_lt _ hinv.cap_pos)]
    congr 1
    simp only [Int.toNat_ofNat]
    exact_mod_cast le_antisymm (hlen ▸ hup) (hlen ▸ hlow)
  · unfold maxColision
    omega
  · have hne : kvs ≠ [] := by
      intro hnil
      rw [hnil] at h4
      simp at h4
    have hsplit := List.dropLast_append_getLast hne
    have hnd2 := hnd
    rw [← hsplit, List.map_append, List.nodup_append] at hnd2
    have hinit := setAll_inv hash _ (construct_inv (V := V) hash c0 h0) kvs.dropLast
    have hlast : contains hash (setAll hash (construct c0) kvs.dropLast) (kvs.getLast hne).1
        = false := by
      cases hc : contains hash (setAll hash (construct c0) kvs.dropLast) (kvs.getLast hne).1 with
      | false => rfl
      | true =>
        have hmem := (contains_setAll_construct (V := V) hash c0 h0 kvs.dropLast _).1 hc
        exact (hnd2.2.2 hmem (by simp)).elim
    have hdl : 3 ≤ (kvs.dropLast.map Prod.fst).length := by
      simp only [List.length_map, List.length_dropLast]
      omega
    have hdouble := (set_same_hash_doubles hash _ hinit (kvs.dropLast.map Prod.fst) hnd2.1 hdl
      (kvs.getLast hne).1 (kvs.getLast hne).2
      (fun k hk => by
        obtain ⟨p, hp, rfl⟩ := List.mem_map.1 hk
        have hpk : p ∈ kvs := List.dropLast_subset kvs hp
        exact ⟨(contains_setAll_construct (V := V) hash c0 h0 kvs.dropLast _).2 hk,
          (hsame p hpk).trans (hsame _ (List.getLast_mem hne)).symm⟩)
      hlast).1
    conv_lhs => rw [← hsplit, setAll_append_singleton]
    exact hdouble
  · intro key value
    rcases capacity_set hash _ hinv.toShape key value with hc | hc
    · exact Or.inl hc
    · exact Or.inr (by rw [hc, Nat.mul_comm])
  · intro key value hkey hhash
    have hk : contains hash (setAll hash (construct c0) kvs) key = false := by
      cases hc : contains hash (setAll hash (construct c0) kvs) key with
      | false => rfl
      | true => exact absurd ((hcont key).1 hc) hkey
    exact (set_same_hash_doubles hash _ hinv (kvs.map Prod.fst) hnd (by omega) key value
      (fun k hkm => ⟨(hks k hkm).1, (hks k hkm).2.trans hhash.symm⟩) hk).1

end ChainHash

namespace ChainHash

variable {K V : Type} [DecidableEq K]

/-! ## Sequences of calls within the range of `int` -/

theorem stepInt_some_eq (hash : K → Nat) (s : ChainHash K V) (c : Call K V)
    (r : Outcome V × ChainHash K V) (h : stepInt hash s c = some r) : r.2 = (step hash s c).2 := by
  cases c with
  | get key => simp only [stepInt, Option.some.injEq] at h; rw [← h]
  | contains key => simp only [stepInt, Option.some.injEq] at h; rw [← h]
  | remove key => simp only [stepInt, Option.some.injEq] at h; rw [← h]
  | set key value =>
    simp only [stepInt, Option.map_eq_some'] at h
    obtain ⟨t, ht, rfl⟩ := h
    exact setInt_some_eq hash s t key value ht

theorem runInt_append_singleton (hash : K → Nat) (s : ChainHash K V) (calls : List (Call K V))
    (c : Call K V) :
    runInt hash s (calls ++ [c])
      = (runInt hash s calls).bind (fun t => (stepInt hash t c).map (fun r => r.2)) := by
  simp [runInt, List.foldl_append]

theorem run_append_singleton (hash : K → Nat) (s : ChainHash K V) (calls : List (Call K V))
    (c : Call K V) : run hash s (calls ++ [c]) = (step hash (run hash s calls) c).2 := by
  simp [run, List.foldl_append]

/-- A sequence of calls that completes on the machine leaves the table that `run` computes. -/
theorem runInt_some_eq (hash : K → Nat) (s t : ChainHash K V) (calls : List (Call K V))
    (h : runInt hash s calls = some t) : t = run hash s calls := by
  induction calls using List.reverseRecOn generalizing t with
  | nil =>
    simp only [runInt, List.foldl_nil, Option.some.injEq] at h
    exact h.symm
  | append_singleton l c ih =>
    rw [runInt_append_singleton] at h
    cases hl : runInt hash s l with
    | none => rw [hl] at h; cases h
    | some u =>
      rw [hl] at h
      simp only [Option.some_bind, Option.map_eq_some'] at h
      obtain ⟨r, hr, rfl⟩ := h
      rw [run_append_singleton, ← ih u hl]
      exact stepInt_some_eq hash u c r hr

/-- A `set` that completes on the machine leaves a capacity within the range of `int`. -/
theorem setInt_capacity_le (hash : K → Nat) (s t : ChainHash K V) (hs : Inv hash s) (key : K)
    (value : V) (h : setInt hash s key value = some t) (hc : (s.capacity : Int) ≤ intMax) :
    (t.capacity : Int) ≤ intMax := by
  have ht := setInt_some_eq hash s t key value h
  rcases capacity_set hash s hs.toShape key value with h1 | h1
  · rw [ht, h1]; exact hc
  · by_contra hover
    rw [ht, h1] at hover
    have hpos := hs.cap_pos
    cases hk : contains hash s key with
    | true =>
      have h2 : (set hash s key value).capacity = s.capacity := by
        rw [set_present_eq hash s hs key value hk]
      omega
    | false =>
      have hg := ((capacity_set_new hash s hs key value hk).1).1 (by rw [h1, Nat.mul_comm])
      have hnone := setInt_eq_none_of_overflow hash s key value hk hg (by push_cast at hover; omega)
      rw [hnone] at h
      cases h

theorem runInt_capacity_le (hash : K → Nat) (s t : ChainHash K V) (hs : Inv hash s)
    (calls : List (Call K V)) (h : runInt hash s calls = some t)
    (hc : (s.capacity : Int) ≤ intMax) : (t.capacity : Int) ≤ intMax := by
  induction calls using List.reverseRecOn generalizing t with
  | nil =>
    simp only [runInt, List.foldl_nil, Option.some.injEq] at h
    rw [← h]; exact hc
  | append_singleton l c ih =>
    rw [runInt_append_singleton] at h
    cases hl : runInt hash s l with
    | none => rw [hl] at h; cases h
    | some u =>
      rw [hl] at h
      simp only [Option.some_bind, Option.map_eq_some'] at h
      obtain ⟨r, hr, rfl⟩ := h
      have hu := ih u hl
      have hinv : Inv hash u := by
        rw [runInt_some_eq hash s u l hl]; exact run_inv hash s hs l
      cases c with
      | get key => simp only [stepInt, Option.some.injEq] at hr; rw [← hr]; exact hu
      | contains key => simp only [stepInt, Option.some.injEq] at hr; rw [← hr]; exact hu
      | remove key =>
        simp only [stepInt, Option.some.injEq] at hr
        rw [← hr]
        show (((remove hash u key).2.capacity : Nat) : Int) ≤ intMax
        rw [capacity_remove]; exact hu
      | set key value =>
        simp only [stepInt, Option.map_eq_some'] at hr
        obtain ⟨t', ht', rfl⟩ := hr
        exact setInt_capacity_le hash u t' hinv key value ht' hu

/-! ## Few keys in a table of four or more buckets -/

theorem countP_nonempty_le_flatten {α : Type} (arr : List (List α)) :
    arr.countP (fun chain => !chain.isEmpty) ≤ arr.flatten.length := by
  induction arr with
  | nil => simp
  | cons a l ih =>
    cases a with
    | nil => simpa using ih
    | cons x xs =>
      simp only [List.countP_cons, List.isEmpty_cons, Bool.not_false, if_true,
        List.flatten_cons, List.length_append, List.length_cons]
      omega

/-- With at most three nodes after the call and four or more buckets, `set` does not grow the table. -/
theorem capacity_set_of_few (hash : K → Nat) (s : ChainHash K V) (hs : Inv hash s) (key : K)
    (value : V) (hfew : s.nsize + 1 ≤ 3) (hcap : 4 ≤ s.capacity) :
    (set hash s key value).capacity = s.capacity := by
  have hi := index_lt s hs.toShape (hash key)
  have hi2 : hash key % s.capacity < s.bucket_sizes.length := by
    rw [hs.sizes_eq]; simpa using hi
  cases hl : setLoop key value (s.array.getD (hash key % s.capacity) []) with
  | some chain => rw [set_of_some hash s key value chain hl]
  | none =>
    have hused : s.usedBuckets ≤ s.nsize := by
      rw [hs.used_eq, hs.nsize_eq]
      exact_mod_cast countP_nonempty_le_flatten s.array
    have hchain : ((s.array.getD (hash key % s.capacity) []).length : Int) ≤ s.nsize := by
      rw [hs.nsize_eq]
      exact_mod_cast (bucket_sublist_nodes s (hash key % s.capacity)).length_le
    have hng : ¬ mustGrow (linkNew s key value (hash key) (hash key % s.capacity))
        (hash key % s.capacity) := by
      rw [mustGrow_iff, linkNew_eq s hs.toShape key value (hash key) _ hi]
      simp only [getD_set_self _ _ hi2]
      rw [sizes_getD s hs.toShape _ hi]
      unfold maxColision
      rintro (⟨_, h2⟩ | h2)
      · split at h2 <;> omega
      · omega
    rw [set_eq_linkNew hash s key value hl hng]
    rfl

theorem setAll_of_few (hash : K → Nat) (c0 : Nat) (h4 : 4 ≤ c0) (kvs : List (K × V))
    (hlen : kvs.length ≤ 3) :
    (setAll hash (construct c0) kvs : ChainHash K V).capacity = c0
      ∧ (setAll hash (construct c0) kvs : ChainHash K V).nsize ≤ kvs.length := by
  induction kvs using List.reverseRecOn with
  | nil => exact ⟨rfl, by simp [setAll, construct]⟩
  | append_singleton l a ih =>
    have hl : l.length + 1 ≤ 3 := by simpa using hlen
    obtain ⟨h1, h2⟩ := ih (by omega)
    have hinv := setAll_inv hash _ (construct_inv (V := V) hash c0 (by omega)) l
    rw [setAll_append_singleton]
    constructor
    · rw [capacity_set_of_few hash _ hinv a.1 a.2 (by omega) (by rw [h1]; exact h4), h1]
    · rw [nsize_set hash _ hinv]
      simp only [List.length_append, List.length_singleton]
      push_cast
      split <;> omega

end ChainHash

namespace ChainHash

variable {K V : Type} [DecidableEq K]

theorem runInt_map_set (hash : K → Nat) (s : ChainHash K V) (kvs : List (K × V)) :
    runInt hash s (kvs.map (fun kv => Call.set kv.1 kv.2)) = setAllInt hash s kvs := by
  induction kvs using List.reverseRecOn with
  | nil => rfl
  | append_singleton l a ih =>
    rw [List.map_append, List.map_cons, List.map_nil, runInt_append_singleton, ih,
      setAllInt_append_singleton]
    cases setAllInt hash s l with
    | none => rfl
    | some u =>
      simp only [Option.some_bind, stepInt, Option.map_map]
      cases setInt hash u a.1 a.2 <;> rfl

theorem nsize_step_le (hash : K → Nat) (s : ChainHash K V) (hs : Inv hash s) (c : Call K V) :
    (step hash s c).2.nsize ≤ s.nsize + 1 := by
  cases c with
  | get key => show s.nsize ≤ s.nsize + 1; omega
  | contains key => show s.nsize ≤ s.nsize + 1; omega
  | set key value =>
    show (set hash s key value).nsize ≤ s.nsize + 1
    rw [nsize_set hash s hs]
    split <;> omega
  | remove key =>
    show (remove hash s key).2.nsize ≤ s.nsize + 1
    cases hr : removeLoop key (s.array.getD (hash key % s.capacity) []) with
    | none => rw [remove_of_none hash s key hr]; show s.nsize ≤ s.nsize + 1; omega
    | some chain =>
      rw [remove_of_some hash s key chain hr]
      show s.nsize - 1 ≤ s.nsize + 1
      omega

theorem nsize_run_le (hash : K → Nat) (s : ChainHash K V) (hs : Inv hash s)
    (calls : List (Call K V)) : (run hash s calls).nsize ≤ s.nsize + calls.length := by
  induction calls using List.reverseRecOn with
  | nil => simp [run]
  | append_singleton l c ih =>
    have := nsize_step_le hash _ (run_inv hash s hs l) c
    rw [run_append_singleton]
    simp only [List.length_append, List.length_singleton]
    push_cast
    omega

/-- A sequence of calls completes on the machine when the capacity of the table
it leaves fits in an `int` and the size could not outgrow an `int` on the way. -/
theorem runInt_eq_some (hash : K → Nat) (s : ChainHash K V) (hs : Inv hash s)
    (calls : List (Call K V)) (hcap : ((run hash s calls).capacity : Int) ≤ intMax)
    (hlen : s.nsize + calls.length ≤ intMax) :
    runInt hash s calls = some (run hash s calls) := by
  induction calls using List.reverseRecOn with
  | nil => rfl
  | append_singleton l c ih =>
    have hinv := run_inv hash s hs l
    have hn := nsize_run_le hash s hs l
    simp only [List.length_append, List.length_singleton] at hlen
    push_cast at hlen
    rw [run_append_singleton] at hcap
    have hcl : ((run hash s l).capacity : Int) ≤ intMax := by
      rcases capacity_step hash _ hinv.toShape c with h | h <;> rw [h] at hcap
      · exact hcap
      · push_cast at hcap; omega
    rw [runInt_append_singleton, ih hcl (by omega), run_append_singleton]
    cases c with
    | get key => rfl
    | contains key => rfl
    | remove key => rfl
    | set key value =>
      have hsz : (set hash (run hash s l) key value).nsize ≤ intMax := by
        have := nsize_step_le hash _ hinv (Call.set key value)
        have h2 : (step hash (run hash s l) (Call.set key value)).2.nsize
            = (set hash (run hash s l) key value).nsize := rfl
        omega
      simp only [Option.some_bind, stepInt]
      rw [setInt_eq_some hash _ hinv key value hcap hsz]
      rfl

end ChainHash

/-! ## The claims about calls that may grow the table, within the range of `int` -/

namespace ChainHash

variable {K V : Type} [DecidableEq K]

/-- C1 as stated fails: it is stated for every initial capacity and every
sequence.  On a table constructed with capacity `2^30 = 1073741824`, which is
an `int`, four `set` calls on distinct keys with one hash code do not complete:
the fourth finds four nodes in its bucket, `rehashing` computes
`capacity * 2 = 2^31`, which is no `int`, and there is no table afterwards on
which `get` could succeed. -/
theorem C1_set_sequence_counterexample :
    0 < 1073741824 ∧ ((1073741824 : Nat) : Int) ≤ intMax
      ∧ (exFour.map Prod.fst).Nodup
      ∧ setAllInt hashSeven (construct 1073741824) exFour = none := by
  refine ⟨by decide, by decide, by decide, ?_⟩
  have hinv := setAll_inv hashSeven _
    (construct_inv (V := Int) hashSeven 1073741824 (by decide)) exThree
  have hcap := (setAll_of_few (V := Int) hashSeven 1073741824 (by decide) exThree
    (by decide)).1
  have hcont := contains_setAll_construct (V := Int) hashSeven 1073741824 (by decide) exThree
  have hnone : setInt hashSeven (setAll hashSeven (construct 1073741824) exThree) 4 40 = none := by
    apply setInt_same_hash_overflow hashSeven _ hinv [1, 2, 3] (by decide) (by decide) 4 40
    · intro k hk
      exact ⟨(hcont k).2 (by simpa [exThree] using hk), rfl⟩
    · cases hc : contains hashSeven (setAll hashSeven (construct 1073741824) exThree) 4 with
      | false => rfl
      | true =>
        have := (hcont 4).1 hc
        simp [exThree] at this
    · rw [hcap]
      decide
  exact setAllInt_none_append hashSeven (construct 1073741824) exThree (4, 40) hnone

/-- C1, amended.  For every positive initial capacity, every hash function and
every finite sequence of `set` calls on a freshly constructed table such that
`bucket_count()` and `size()` of the resulting table do not exceed the largest
`int`: every call completes, afterwards `size()` is the number of distinct
keys of the sequence, and for every key of the sequence `get` succeeds and
returns the value of the last call made with that key. -/
theorem C1_set_sequence (hash : K → Nat) (c0 : Nat) (h0 : 0 < c0) (kvs : List (K × V))
    (hcap : bucket_count (setAll hash (construct c0) kvs) ≤ intMax)
    (hsize : size (setAll hash (construct c0) kvs) ≤ intMax) :
    setAllInt hash (construct c0) kvs = some (setAll hash (construct c0) kvs)
      ∧ size (setAll hash (construct c0) kvs) = ((kvs.map Prod.fst).dedup.length : Int)
      ∧ ∀ k ∈ kvs.map Prod.fst, ∃ pre v suf, kvs = pre ++ (k, v) :: suf
          ∧ (∀ p ∈ suf, p.1 ≠ k)
          ∧ get hash (setAll hash (construct c0) kvs) k = Except.ok v := by
  have hspec := setAll_construct_spec hash c0 h0 kvs
  exact ⟨setAllInt_eq_some hash _ (construct_inv hash c0 h0) kvs hcap hsize, hspec.1, hspec.2⟩

/-- Witness of the amended C1: three calls on a table of capacity 4, the key 1 written twice. -/
theorem C1_set_sequence_witness :
    0 < 4
      ∧ bucket_count (setAll hashTimes4 (construct 4) [((1 : Nat), (10 : Int)), (2, 20), (1, 11)])
          ≤ intMax
      ∧ size (setAll hashTimes4 (construct 4) [((1 : Nat), (10 : Int)), (2, 20), (1, 11)])
          ≤ intMax
      ∧ (setAllInt hashTimes4 (construct 4) [((1 : Nat), (10 : Int)), (2, 20), (1, 11)]
          = some (setAll hashTimes4 (construct 4) [(1, 10), (2, 20), (1, 11)])
        ∧ size (setAll hashTimes4 (construct 4) [((1 : Nat), (10 : Int)), (2, 20), (1, 11)])
          = (((([((1 : Nat), (10 : Int)), (2, 20), (1, 11)] : List (Nat × Int)).map
              Prod.fst).dedup.length : Nat) : Int)
        ∧ ∀ k ∈ ([((1 : Nat), (10 : Int)), (2, 20), (1, 11)] : List (Nat × Int)).map Prod.fst,
            ∃ pre v suf, [((1 : Nat), (10 : Int)), (2, 20), (1, 11)] = pre ++ (k, v) :: suf
              ∧ (∀ p ∈ suf, p.1 ≠ k)
              ∧ get hashTimes4 (setAll hashTimes4 (construct 4) [(1, 10), (2, 20), (1, 11)]) k
                  = Except.ok v) :=
  ⟨by decide, by decide, by decide,
   C1_set_sequence hashTimes4 4 (by decide) [(1, 10), (2, 20), (1, 11)] (by decide)
     (by decide)⟩

/-- C2 as stated fails: the table constructed with capacity `2^30` that holds
three keys with one hash code is reachable, and `set` of a fourth key with that
hash code does not complete on it (`capacity * 2` is no `int`), so no `get`
follows it. -/
theorem C2_write_then_read_counterexample :
    Reachable hashSeven (setAll hashSeven (construct 1073741824) exThree)
      ∧ bucket_count (setAll hashSeven (construct 1073741824) exThree) = 1073741824
      ∧ setInt hashSeven (setAll hashSeven (construct 1073741824) exThree) 4 40 = none := by
  have hinv := setAll_inv hashSeven _
    (construct_inv (V := Int) hashSeven 1073741824 (by decide)) exThree
  have hcap := (setAll_of_few (V := Int) hashSeven 1073741824 (by decide) exThree
    (by decide)).1
  have hcont := contains_setAll_construct (V := Int) hashSeven 1073741824 (by decide) exThree
  refine ⟨reachable_setAll hashSeven _ (Reachable.construct 1073741824 (by decide)) _, ?_, ?_⟩
  · unfold bucket_count
    rw [hcap]
    rfl
  · apply setInt_same_hash_overflow hashSeven _ hinv [1, 2, 3] (by decide) (by decide) 4 40
    · intro k hk
      exact ⟨(hcont k).2 (by simpa [exThree] using hk), rfl⟩
    · cases hc : contains hashSeven (setAll hashSeven (construct 1073741824) exThree) 4 with
      | false => rfl
      | true =>
        have := (hcont 4).1 hc
        simp [exThree] at this
    · rw [hcap]
      decide

/-- C2, amended.  In every state reachable from a constructed table of positive
capacity by `set` and `remove`, and for every key `k` and value `v` such that
`bucket_count()` and `size()` after `set(k, v)` do not exceed the largest
`int`: the `set` completes, and `get(k)` right after it succeeds and returns
`v`, whether `k` was present or new and whether or not the `set` rehashed. -/
theorem C2_write_then_read (hash : K → Nat) (s : ChainHash K V) (hr : Reachable hash s)
    (k : K) (v : V) (hcap : bucket_count (set hash s k v) ≤ intMax)
    (hsize : size (set hash s k v) ≤ intMax) :
    setInt hash s k v = some (set hash s k v)
      ∧ get hash (set hash s k v) k = Except.ok v := by
  have hs := reachable_inv hash s hr
  refine ⟨setInt_eq_some hash s hs k v hcap hsize, ?_⟩
  rw [get_set hash s hs, if_pos rfl]

/-- Witness of the amended C2: a fourth key in bucket 0 of the example table, a `set` that rehashes. -/
theorem C2_write_then_read_witness :
    Reachable hashTimes4 exTable
      ∧ bucket_count (set hashTimes4 exTable 4 40) ≤ intMax
      ∧ size (set hashTimes4 exTable 4 40) ≤ intMax
      ∧ (setInt hashTimes4 exTable 4 40 = some (set hashTimes4 exTable 4 40)
        ∧ get hashTimes4 (set hashTimes4 exTable 4 40) 4 = Except.ok 40) :=
  ⟨reachable_setAll hashTimes4 _ (Reachable.construct 4 (by decide)) _, by decide, by decide,
   C2_write_then_read hashTimes4 exTable
     (reachable_setAll hashTimes4 _ (Reachable.construct 4 (by decide)) _) 4 40 (by decide)
     (by decide)⟩

end ChainHash

namespace ChainHash

variable {K V : Type} [DecidableEq K]

/-- C8 as stated fails: it is stated for every initial capacity and every
sequence of calls.  On a table constructed with capacity `2^30` the sequence of
four `set` calls on distinct keys with one hash code does not complete, since
the fourth `set` calls `rehashing` and `capacity * 2 = 2^31` is no `int`: that
`set` neither leaves `bucket_count()` unchanged nor doubles it. -/
theorem C8_bucket_count_counterexample :
    0 < 1073741824 ∧ ((1073741824 : Nat) : Int) ≤ intMax
      ∧ runInt hashSeven (construct 1073741824)
          (exFour.map (fun kv => Call.set kv.1 kv.2)) = none := by
  refine ⟨by decide, by decide, ?_⟩
  have hinv := setAll_inv hashSeven _
    (construct_inv (V := Int) hashSeven 1073741824 (by decide)) exThree
  have hcap := (setAll_of_few (V := Int) hashSeven 1073741824 (by decide) exThree
    (by decide)).1
  have hcont := contains_setAll_construct (V := Int) hashSeven 1073741824 (by decide) exThree
  have hnone : setInt hashSeven (setAll hashSeven (construct 1073741824) exThree) 4 40 = none := by
    apply setInt_same_hash_overflow hashSeven _ hinv [1, 2, 3] (by decide) (by decide) 4 40
    · intro k hk
      exact ⟨(hcont k).2 (by simpa [exThree] using hk), rfl⟩
    · cases hc : contains hashSeven (setAll hashSeven (construct 1073741824) exThree) 4 with
      | false => rfl
      | true =>
        have := (hcont 4).1 hc
        simp [exThree] at this
    · rw [hcap]
      decide
  rw [runInt_map_set]
  exact setAllInt_none_append hashSeven (construct 1073741824) exThree (4, 40) hnone

/-- C8, amended.  Take a table constructed with a capacity `c0 > 0` that is an
`int`, and a sequence of `set`, `remove`, `get` and `contains` calls.  The
sequence completes whenever the capacity it leads to fits in an `int` and it
has at most as many calls as the largest `int`.  After every sequence that
completes, `bucket_count()` is a positive `int` and equals `c0 * 2^k` for some
natural `k`; a next `get`, `contains` or `remove` leaves it unchanged; a next
`set` that completes leaves it unchanged or exactly doubles it; and it is not
larger than after any longer sequence that completes. -/
theorem C8_bucket_count (hash : K → Nat) (c0 : Nat) (h0 : 0 < c0) (hc0 : (c0 : Int) ≤ intMax)
    (calls : List (Call K V)) :
    (bucket_count (run hash (construct c0) calls) ≤ intMax → (calls.length : Int) ≤ intMax →
        runInt hash (construct c0) calls = some (run hash (construct c0) calls))
      ∧ ∀ s, runInt hash (construct c0) calls = some s →
          0 < bucket_count s ∧ bucket_count s ≤ intMax
            ∧ (∃ k : Nat, bucket_count s = (c0 : Int) * 2 ^ k)
            ∧ (∀ key, bucket_count (step hash s (Call.get key)).2 = bucket_count s)
            ∧ (∀ key, bucket_count (step hash s (Call.contains key)).2 = bucket_count s)
            ∧ (∀ key, bucket_count (step hash s (Call.remove key)).2 = bucket_count s)
            ∧ (∀ key value t, setInt hash s key value = some t →
                bucket_count t = bucket_count s ∨ bucket_count t = 2 * bucket_count s)
            ∧ (∀ more t, runInt hash (construct c0) (calls ++ more) = some t →
                bucket_count s ≤ bucket_count t) := by
  have hinv0 := construct_inv (V := V) hash c0 h0
  constructor
  · intro hcap hlen
    apply runInt_eq_some hash _ hinv0 calls hcap
    show (0 : Int) + (calls.length : Int) ≤ intMax
    omega
  · intro s hrun
    have hs := runInt_some_eq hash _ s calls hrun
    have hle := runInt_capacity_le hash _ s hinv0 calls hrun hc0
    obtain ⟨h1, h2, h3, h4, h5, h6, h7⟩ := run_bucket_count_spec hash c0 h0 calls
    rw [← hs] at h1 h2 h3 h4 h5 h6 h7
    refine ⟨h1, hle, h2, h3, h4, h5, ?_, ?_⟩
    · intro key value t ht
      rw [setInt_some_eq hash s t key value ht]
      exact h6 key value
    · intro more t ht
      rw [runInt_some_eq hash _ t (calls ++ more) ht]
      exact h7 more

/-- Witness of the amended C8: six calls on a table of capacity 4; the fourth `set` doubles the capacity. -/
theorem C8_bucket_count_witness :
    0 < 4 ∧ ((4 : Nat) : Int) ≤ intMax
      ∧ ((bucket_count (run hashTimes4 (construct 4) exCalls) ≤ intMax →
            (exCalls.length : Int) ≤ intMax →
            runInt hashTimes4 (construct 4) exCalls = some (run hashTimes4 (construct 4) exCalls))
        ∧ ∀ s, runInt hashTimes4 (construct 4) exCalls = some s →
            0 < bucket_count s ∧ bucket_count s ≤ intMax
              ∧ (∃ k : Nat, bucket_count s = ((4 : Nat) : Int) * 2 ^ k)
              ∧ (∀ key, bucket_count (step hashTimes4 s (Call.get key)).2 = bucket_count s)
              ∧ (∀ key, bucket_count (step hashTimes4 s (Call.contains key)).2 = bucket_count s)
              ∧ (∀ key, bucket_count (step hashTimes4 s (Call.remove key)).2 = bucket_count s)
              ∧ (∀ key value t, setInt hashTimes4 s key value = some t →
                  bucket_count t = bucket_count s ∨ bucket_count t = 2 * bucket_count s)
              ∧ (∀ more t, runInt hashTimes4 (construct 4) (exCalls ++ more) = some t →
                  bucket_count s ≤ bucket_count t)) :=
  ⟨by decide, by decide, C8_bucket_count hashTimes4 4 (by decide) (by decide) exCalls⟩

/-- C16 as stated fails, in two ways.  The empty table of capacity `2^30`
satisfies every invariant, and `rehashing` has no result on it: `capacity * 2`
is no `int`.  And the invariants named by the data model do not tie the cached
hash code of a node to its key: the table `exStale` satisfies them, `get(1)`
succeeds on it under the identity hash, and after `rehashing` the node sits in
bucket `3 % 4` while `get(1)` looks in bucket `1 % 4` and fails. -/
theorem C16_rehashing_counterexample :
    (Inv hashSeven (construct 1073741824 : ChainHash Nat Int)
        ∧ rehashingInt (construct 1073741824 : ChainHash Nat Int) = none)
      ∧ (Shape exStale ∧ exStale.nsize = ((nodes exStale).length : Int)
        ∧ ((nodes exStale).map (fun n => n.key)).Nodup
        ∧ (exStale.capacity : Int) * 2 ≤ intMax
        ∧ get id exStale 1 = Except.ok 10
        ∧ get id (rehashing exStale) 1 = Except.error ChainError.keyNotFound) := by
  refine ⟨⟨construct_inv hashSeven 1073741824 (by decide), ?_⟩, ?_, by decide, by decide,
    by decide, rfl, rfl⟩
  · unfold rehashingInt
    rw [if_neg]
    show ¬ ((1073741824 : Nat) : Int) * 2 ≤ intMax
    decide
  · refine ⟨by decide, rfl, rfl, rfl, ?_⟩
    intro i hi n hn
    have hi2 : i < 2 := hi
    have hcases : i = 0 ∨ i = 1 := by omega
    rcases hcases with rfl | rfl
    · simp [exStale] at hn
    · simp only [exStale, List.getElem_cons_succ, List.getElem_cons_zero,
        List.mem_singleton] at hn
      rw [hn]
      rfl

/-- C16, amended.  For every state of positive capacity `c` with `2c` an `int`
that satisfies the data-model invariants (counters, slots, key uniqueness),
`rehashing` completes and yields a state of capacity exactly `2c`, of unchanged
size, whose nodes are, as a multiset of (key, value, hashcode) records, the
nodes of the state before, and which satisfies those invariants again.  If
moreover every node caches the hash code of its own key, as in every reachable
state, this is so afterwards too, and `get(k)` and `contains(k)` answer for
every key as they did before. -/
theorem C16_rehashing (hash : K → Nat) (s : ChainHash K V) (hshape : Shape s)
    (hsize : s.nsize = ((nodes s).length : Int))
    (hnd : ((nodes s).map (fun n => n.key)).Nodup)
    (hfit : (s.capacity : Int) * 2 ≤ intMax) :
    rehashingInt s = some (rehashing s)
      ∧ (rehashing s).capacity = 2 * s.capacity
      ∧ size (rehashing s) = size s
      ∧ (nodes (rehashing s)).Perm (nodes s)
      ∧ Shape (rehashing s)
      ∧ (rehashing s).nsize = ((nodes (rehashing s)).length : Int)
      ∧ ((nodes (rehashing s)).map (fun n => n.key)).Nodup
      ∧ ((∀ n ∈ nodes s, n.hashcode = hash n.key) →
          (∀ n ∈ nodes (rehashing s), n.hashcode = hash n.key)
            ∧ (∀ k, get hash (rehashing s) k = get hash s k)
            ∧ (∀ k, contains hash (rehashing s) k = contains hash s k)) := by
  obtain ⟨h1, h2, h3, h4⟩ := rehashing_shape s hshape
  refine ⟨?_, by rw [h2, Nat.mul_comm], h3, h4, h1, ?_, ?_, ?_⟩
  · unfold rehashingInt
    rw [if_pos hfit]
  · rw [h3, hsize, h4.length_eq]
  · exact ((h4.map (fun n => n.key)).nodup_iff).2 hnd
  · intro hhash
    have hs : Inv hash s :=
      { toShape := hshape, nsize_eq := hsize, hash_ok := hhash, nodup := hnd }
    refine ⟨(rehashing_inv hash s hs).hash_ok, fun k => get_rehashing hash s hs k, fun k => ?_⟩
    exact contains_eq_of_get_eq hash _ _ k (get_rehashing hash s hs k)

/-- Witness of the amended C16: rehashing the example table. -/
theorem C16_rehashing_witness :
    Shape exTable ∧ exTable.nsize = ((nodes exTable).length : Int)
      ∧ ((nodes exTable).map (fun n => n.key)).Nodup
      ∧ (exTable.capacity : Int) * 2 ≤ intMax
      ∧ (rehashingInt exTable = some (rehashing exTable)
        ∧ (rehashing exTable).capacity = 2 * exTable.capacity
        ∧ size (rehashing exTable) = size exTable
        ∧ (nodes (rehashing exTable)).Perm (nodes exTable)
        ∧ Shape (rehashing exTable)
        ∧ (rehashing exTable).nsize = ((nodes (rehashing exTable)).length : Int)
        ∧ ((nodes (rehashing exTable)).map (fun n => n.key)).Nodup
        ∧ ((∀ n ∈ nodes exTable, n.hashcode = hashTimes4 n.key) →
            (∀ n ∈ nodes (rehashing exTable), n.hashcode = hashTimes4 n.key)
              ∧ (∀ k, get hashTimes4 (rehashing exTable) k = get hashTimes4 exTable k)
              ∧ (∀ k, contains hashTimes4 (rehashing exTable) k
                  = contains hashTimes4 exTable k))) :=
  ⟨(reachable_inv hashTimes4 exTable
      (reachable_setAll hashTimes4 _ (Reachable.construct 4 (by decide)) _)).toShape,
   by decide, by decide, by decide,
   C16_rehashing hashTimes4 exTable
     (reachable_inv hashTimes4 exTable
       (reachable_setAll hashTimes4 _ (Reachable.construct 4 (by decide)) _)).toShape
     (by decide) (by decide) (by decide)⟩

end ChainHash

namespace ChainHash

variable {K V : Type} [DecidableEq K]

theorem nsize_setAll_le (hash : K → Nat) (s : ChainHash K V) (hs : Inv hash s)
    (kvs : List (K × V)) : (setAll hash s kvs).nsize ≤ s.nsize + kvs.length := by
  induction kvs using List.reverseRecOn with
  | nil => simp [setAll]
  | append_singleton l a ih =>
    rw [setAll_append_singleton, nsize_set hash _ (setAll_inv hash s hs l)]
    simp only [List.length_append, List.length_singleton]
    push_cast
    split <;> omega

/-- C20 as stated fails in its last part.  On a table constructed with capacity
`2^29 = 536870912` the four `set` calls on the keys 1, 2, 3, 4, all of hash
code 7, complete and leave `bucket_count() = 2^30` with four nodes in bucket 7.
The key 5 is a further distinct key with that hash code, and `set(5, 50)` does
not double `bucket_count()` again: `capacity * 2 = 2^31` is no `int` and the
call does not complete. -/
theorem C20_crowded_bucket_counterexample :
    setAllInt hashSeven (construct 536870912) exFour
        = some (setAll hashSeven (construct 536870912) exFour)
      ∧ bucket_count (setAll hashSeven (construct 536870912) exFour) = 1073741824
      ∧ bucket_size (setAll hashSeven (construct 536870912) exFour) 7 = Except.ok 4
      ∧ contains hashSeven (setAll hashSeven (construct 536870912) exFour) 5 = false
      ∧ hashSeven 5 = 7
      ∧ setInt hashSeven (setAll hashSeven (construct 536870912) exFour) 5 50 = none := by
  have hinv := setAll_inv hashSeven _
    (construct_inv (V := Int) hashSeven 536870912 (by decide)) exFour
  have hcont := contains_setAll_construct (V := Int) hashSeven 536870912 (by decide) exFour
  have hthree := (setAll_of_few (V := Int) hashSeven 536870912 (by decide) exThree
    (by decide)).1
  obtain ⟨hb, _, hdouble, _, _⟩ := setAll_same_hash_spec (V := Int) hashSeven 536870912
    (by decide) exFour (by decide) (by decide) 7 (by decide)
  have hdl : exFour.dropLast = exThree := rfl
  have hcap : (setAll hashSeven (construct 536870912) exFour).capacity = 1073741824 := by
    rw [hdouble, hdl, hthree]
  have hsize := nsize_setAll_le hashSeven _
    (construct_inv (V := Int) hashSeven 536870912 (by decide)) exFour
  have hzero : (construct 536870912 : ChainHash Nat Int).nsize = 0 := rfl
  have hfour : exFour.length = 4 := rfl
  rw [hzero, hfour] at hsize
  have hk5 : contains hashSeven (setAll hashSeven (construct 536870912) exFour) 5 = false := by
    cases hc : contains hashSeven (setAll hashSeven (construct 536870912) exFour) 5 with
    | false => rfl
    | true =>
      have := (hcont 5).1 hc
      simp [exFour] at this
  refine ⟨?_, ?_, ?_, hk5, rfl, ?_⟩
  · apply setAllInt_eq_some hashSeven _ (construct_inv hashSeven 536870912 (by decide)) exFour
    · rw [hcap]; decide
    · unfold intMax
      omega
  · unfold bucket_count
    rw [hcap]
    rfl
  · have e1 : ((7 % 1073741824 : Nat) : Int) = 7 := by decide
    have e2 : ((exFour.length : Nat) : Int) = 4 := by decide
    rw [hcap, e1, e2] at hb
    exact hb
  · apply setInt_same_hash_overflow hashSeven _ hinv [1, 2, 3, 4] (by decide) (by decide) 5 50
    · intro k hk
      exact ⟨(hcont k).2 (by simpa [exFour] using hk), rfl⟩
    · exact hk5
    · rw [hcap]
      decide

/-- C20, amended.  Take any hash function, any positive initial capacity and
any sequence of `set` calls on at least four distinct keys that share one hash
code `h`, such that `bucket_count()` and `size()` of the resulting table do not
exceed the largest `int`.  The calls complete and the bucket of `h` holds all
the keys, so its `bucket_size` exceeds `maxColision = 3` although the last call
rehashed (it doubled the capacity the table had before it): "every bucket
holds at most 3 nodes" is not an invariant.  A `set` that completes changes the
capacity by at most one doubling.  A further key with hash code `h` that is not
yet present doubles `bucket_count()` again as long as the double and the new
size are `int`s, and its `set` does not complete once the double is no `int`. -/
theorem C20_crowded_bucket (hash : K → Nat) (c0 : Nat) (h0 : 0 < c0) (kvs : List (K × V))
    (hnd : (kvs.map Prod.fst).Nodup) (h4 : 4 ≤ kvs.length) (h : Nat)
    (hsame : ∀ p ∈ kvs, hash p.1 = h)
    (hcap : bucket_count (setAll hash (construct c0) kvs) ≤ intMax)
    (hsize : size (setAll hash (construct c0) kvs) ≤ intMax) :
    setAllInt hash (construct c0) kvs = some (setAll hash (construct c0) kvs)
      ∧ bucket_size (setAll hash (construct c0) kvs)
          ((h % (setAll hash (construct c0) kvs).capacity : Nat) : Int)
          = Except.ok (kvs.length : Int)
      ∧ (kvs.length : Int) > maxColision
      ∧ (setAll hash (construct c0) kvs).capacity
          = 2 * (setAll hash (construct c0) kvs.dropLast).capacity
      ∧ (∀ key value t, setInt hash (setAll hash (construct c0) kvs) key value = some t →
          t.capacity = (setAll hash (construct c0) kvs).capacity
            ∨ t.capacity = 2 * (setAll hash (construct c0) kvs).capacity)
      ∧ (∀ key value, key ∉ kvs.map Prod.fst → hash key = h →
          (2 * bucket_count (setAll hash (construct c0) kvs) ≤ intMax →
            size (setAll hash (construct c0) kvs) + 1 ≤ intMax →
            ∃ t, setInt hash (setAll hash (construct c0) kvs) key value = some t
              ∧ bucket_count t = 2 * bucket_count (setAll hash (construct c0) kvs))
          ∧ (intMax < 2 * bucket_count (setAll hash (construct c0) kvs) →
              setInt hash (setAll hash (construct c0) kvs) key value = none)) := by
  have hinv0 := construct_inv (V := V) hash c0 h0
  have hinv := setAll_inv hash _ hinv0 kvs
  have hcont := contains_setAll_construct (V := V) hash c0 h0 kvs
  obtain ⟨hb, hgt, hdouble, hstep, hfurther⟩ :=
    setAll_same_hash_spec hash c0 h0 kvs hnd h4 h hsame
  refine ⟨setAllInt_eq_some hash _ hinv0 kvs hcap hsize, hb, hgt, hdouble, ?_, ?_⟩
  · intro key value t ht
    rw [setInt_some_eq hash _ t key value ht]
    exact hstep key value
  · intro key value hkey hhash
    have hk : contains hash (setAll hash (construct c0) kvs) key = false := by
      cases hc : contains hash (setAll hash (construct c0) kvs) key with
      | false => rfl
      | true => exact absurd ((hcont key).1 hc) hkey
    have hd := hfurther key value hkey hhash
    constructor
    · intro h2 hs1
      refine ⟨set hash (setAll hash (construct c0) kvs) key value, ?_, ?_⟩
      · apply setInt_eq_some hash _ hinv key value
        · rw [hd]
          unfold bucket_count at h2
          push_cast
          exact h2
        · rw [nsize_set hash _ hinv, hk]
          simpa using hs1
      · unfold bucket_count
        rw [hd]
        push_cast
        rfl
    · intro hover
      apply setInt_eq_none_of_overflow hash _ key value hk
      · exact ((capacity_set_new hash _ hinv key value hk).1).1 hd
      · unfold bucket_count at hover
        omega

/-- Witness of the amended C20: capacity 4 and the keys 1, 2, 3, 4, all with
hash code 7; the fourth insertion rehashes to capacity 8 and bucket 7 holds
four nodes. -/
theorem C20_crowded_bucket_witness :
    0 < 4 ∧ (exFour.map Prod.fst).Nodup ∧ 4 ≤ exFour.length
      ∧ (∀ p ∈ exFour, hashSeven p.1 = 7)
      ∧ bucket_count (setAll hashSeven (construct 4) exFour) ≤ intMax
      ∧ size (setAll hashSeven (construct 4) exFour) ≤ intMax
      ∧ (setAllInt hashSeven (construct 4) exFour
            = some (setAll hashSeven (construct 4) exFour)
        ∧ bucket_size (setAll hashSeven (construct 4) exFour)
            ((7 % (setAll hashSeven (construct 4) exFour).capacity : Nat) : Int)
            = Except.ok (exFour.length : Int)
        ∧ (exFour.length : Int) > maxColision
        ∧ (setAll hashSeven (construct 4) exFour).capacity
            = 2 * (setAll hashSeven (construct 4) exFour.dropLast).capacity
        ∧ (∀ key value t,
            setInt hashSeven (setAll hashSeven (construct 4) exFour) key value = some t →
            t.capacity = (setAll hashSeven (construct 4) exFour).capacity
              ∨ t.capacity = 2 * (setAll hashSeven (construct 4) exFour).capacity)
        ∧ (∀ key value, key ∉ exFour.map Prod.fst → hashSeven key = 7 →
            (2 * bucket_count (setAll hashSeven (construct 4) exFour) ≤ intMax →
              size (setAll hashSeven (construct 4) exFour) + 1 ≤ intMax →
              ∃ t, setInt hashSeven (setAll hashSeven (construct 4) exFour) key value = some t
                ∧ bucket_count t = 2 * bucket_count (setAll hashSeven (construct 4) exFour))
            ∧ (intMax < 2 * bucket_count (setAll hashSeven (construct 4) exFour) →
                setInt hashSeven (setAll hashSeven (construct 4) exFour) key value = none))) :=
  ⟨by decide, by decide, by decide, by decide, by decide, by decide,
   C20_crowded_bucket hashSeven 4 (by decide) exFour (by decide) (by decide) 7 (by decide)
     (by decide) (by decide)⟩

end ChainHash
